/-
Verification of the weighted-rs selection library (smallnest/weighted-rs).

A shallow embedding of the three selectors from src/:
  - RoundrobinWeight (src/roundrobin_weight.rs), the LVS weighted round-robin,
  - SmoothWeight (src/smooth_weight.rs), the Nginx smooth weighted round-robin,
  - RandWeight (src/random_weight.rs), proportional random selection.

Machine integers (Rust isize) are modelled as Int; Rust's truncating `%` on
isize is Int.tmod.  Fallible behaviour (index panics, rand's gen_range panic
when the range is empty) is made explicit: functions that can panic return an
Option whose `none` means "the Rust code panics here", or a dedicated result
type with a `crash` constructor.  The random draw performed by
ThreadRng.gen_range(0, sum) is passed to RandWeight.next as an explicit
argument; rand 0.6's two-argument gen_range(low, high) panics when low >= high,
which is modelled by the sum_of_weights <= 0 guard producing `none`.
Loops are given explicit fuel; theorems prove the fuel suffices.
-/
import Mathlib

set_option autoImplicit false

namespace WeightedRs

/-! ### The free function `gcd` of roundrobin_weight.rs

Rust source:
```
fn gcd(x: isize, y: isize) -> isize {
    let (mut t, mut a, mut b) = ...;
    loop { t = a % b; if t > 0 { a = b; b = t; } else { return b; } }
}
```
For the arguments the library actually passes (both positive) the loop is the
Euclidean algorithm and performs at most `b` iterations, so the explicit fuel
`b.natAbs + 1` is never exhausted. -/

def rustGcdAux : Nat → Int → Int → Int
  | 0, _, b => b
  | f + 1, a, b =>
    let t := a.tmod b
    if 0 < t then rustGcdAux f b t else b

def rustGcd (x y : Int) : Int :=
  rustGcdAux (y.natAbs + 1) x y

/-! ### RoundrobinWeight (src/roundrobin_weight.rs) -/

structure RRWeightItem (T : Type) where
  item : T
  weight : Int
deriving DecidableEq, Repr

structure RoundrobinWeight (T : Type) where
  items : List (RRWeightItem T)
  gcd : Int
  max_w : Int
  i : Int
  cw : Int
deriving DecidableEq, Repr

namespace RoundrobinWeight

/-- `RoundrobinWeight::new()`. -/
def new (T : Type) : RoundrobinWeight T :=
  { items := [], gcd := 0, max_w := 0, i := 0, cw := 0 }

/-- `RoundrobinWeight::add(item, weight)`. -/
def add {T : Type} (s : RoundrobinWeight T) (item : T) (weight : Int) :
    RoundrobinWeight T :=
  let s' :=
    if 0 < weight then
      if s.gcd = 0 then
        { s with gcd := weight, max_w := weight, i := -1, cw := 0 }
      else
        { s with gcd := rustGcd s.gcd weight,
                 max_w := if s.max_w < weight then weight else s.max_w }
    else s
  { s' with items := s'.items ++ [⟨item, weight⟩] }

/-- One iteration of the `loop` in `RoundrobinWeight::next`.  `ret` is a
`return` from the loop, `cont` continues with the mutated state, `crash` is a
Rust panic (index out of bounds via `self.i as usize`). -/
inductive StepRes (T : Type) where
  | ret (s : RoundrobinWeight T) (v : Option T)
  | cont (s : RoundrobinWeight T)
  | crash
deriving DecidableEq

/-- The check `if self.items[self.i as usize].weight >= self.cw { return ... }`
performed at the bottom of each loop iteration. -/
def stepCheck {T : Type} (s : RoundrobinWeight T) : StepRes T :=
  if s.i < 0 then .crash
  else
    match s.items.get? s.i.toNat with
    | none => .crash
    | some it => if s.cw ≤ it.weight then .ret s (some it.item) else .cont s

/-- One full iteration of the loop body of `RoundrobinWeight::next`:
advance `i` cyclically, on wrap decrement `cw` by `gcd` (resetting to `max_w`,
and returning `None` when `max_w` is 0), then run the weight check. -/
def step {T : Type} (s : RoundrobinWeight T) : StepRes T :=
  let n : Int := (s.items.length : Int)
  let i1 := (s.i + 1).tmod n
  if i1 = 0 then
    let cwa := s.cw - s.gcd
    if cwa ≤ 0 then
      if s.max_w = 0 then .ret { s with i := i1, cw := s.max_w } none
      else stepCheck { s with i := i1, cw := s.max_w }
    else stepCheck { s with i := i1, cw := cwa }
  else stepCheck { s with i := i1 }

/-- Result of a whole `next()` call.  `spin` means the fuel ran out, i.e. the
Rust loop would still be running after that many iterations. -/
inductive NextRes (T : Type) where
  | ok (s : RoundrobinWeight T) (v : Option T)
  | crash
  | spin
deriving DecidableEq

def loopFuel {T : Type} : Nat → RoundrobinWeight T → NextRes T
  | 0, _ => .spin
  | f + 1, s =>
    match step s with
    | .ret s' v => .ok s' v
    | .crash => .crash
    | .cont s' => loopFuel f s'

/-- Fuel sufficient for one `next()` call (proved below for reachable states):
at most one partial sweep to the next wrap plus one full sweep after it. -/
def nextFuel {T : Type} (s : RoundrobinWeight T) : Nat :=
  2 * s.items.length + 2

/-- `RoundrobinWeight::next()`. -/
def next {T : Type} (s : RoundrobinWeight T) : NextRes T :=
  if s.items.length ≤ 1 then
    .ok s (s.items.head?.map (·.item))
  else
    loopFuel (nextFuel s) s

/-- `RoundrobinWeight::all()` (returns an iterator of `(item, weight)`). -/
def all {T : Type} (s : RoundrobinWeight T) : List (T × Int) :=
  s.items.map fun it => (it.item, it.weight)

/-- `RoundrobinWeight::remove_all()`. -/
def remove_all {T : Type} (_s : RoundrobinWeight T) : RoundrobinWeight T :=
  { items := [], gcd := 0, max_w := 0, i := -1, cw := 0 }

/-- `RoundrobinWeight::reset()`. -/
def reset {T : Type} (s : RoundrobinWeight T) : RoundrobinWeight T :=
  { s with i := -1, cw := 0 }

/-- The update `add` applies to the `(gcd, max_w)` aggregate for one new
entry. -/
def aggStep {T : Type} (gm : Int × Int) (it : RRWeightItem T) : Int × Int :=
  if 0 < it.weight then
    if gm.1 = 0 then (it.weight, it.weight)
    else (rustGcd gm.1 it.weight,
          if gm.2 < it.weight then it.weight else gm.2)
  else gm

/-- The `(gcd, max_w)` aggregate that a sequence of `add` calls computes,
as a function of the entry list. -/
def agg {T : Type} (l : List (RRWeightItem T)) : Int × Int :=
  l.foldl aggStep (0, 0)

/-- Well-formedness of a `(gcd, max_w)` aggregate: both components positive,
or both zero. -/
def AggOk (gm : Int × Int) : Prop :=
  (0 < gm.1 ∧ 0 < gm.2) ∨ gm = (0, 0)

/-- States reachable through the public API from `new()` (`next` contributes
its successor state whenever the call completes normally). -/
inductive Reach {T : Type} : RoundrobinWeight T → Prop where
  | new : Reach (new T)
  | add {s : RoundrobinWeight T} (x : T) (w : Int) : Reach s → Reach (s.add x w)
  | reset {s : RoundrobinWeight T} : Reach s → Reach s.reset
  | remove_all {s : RoundrobinWeight T} : Reach s → Reach s.remove_all
  | next {s s' : RoundrobinWeight T} {v : Option T} :
      Reach s → s.next = .ok s' v → Reach s'

/-- The state invariant maintained by every reachable RoundrobinWeight
state: the stored aggregates agree with the entry list, the countdown weight
lies in `[0, max_w]`, and the cursor lies in `[-1, length)` (`≤ 0` while the
list is empty). -/
structure Inv {T : Type} (s : RoundrobinWeight T) : Prop where
  agg_eq : (s.gcd, s.max_w) = agg s.items
  cw_nonneg : 0 ≤ s.cw
  cw_le : s.cw ≤ s.max_w
  i_lb : -1 ≤ s.i
  i_ub_nil : s.items = [] → s.i ≤ 0
  i_ub : s.items ≠ [] → s.i < (s.items.length : Int)

end RoundrobinWeight

/-! ### A HashMap model

`all()` in random_weight.rs and smooth_weight.rs builds a
`HashMap<T, isize>` by repeated `insert`.  The map is modelled as an
association list without duplicate keys; `insert` replaces the value of an
existing key and otherwise appends the new pair. -/

def hmInsert {T : Type} [DecidableEq T] (k : T) (v : Int) :
    List (T × Int) → List (T × Int)
  | [] => [(k, v)]
  | p :: rest => if p.1 = k then (k, v) :: rest else p :: hmInsert k v rest

/-- Lookup in the modelled HashMap. -/
def hmLookup {T : Type} [DecidableEq T] (k : T) : List (T × Int) → Option Int
  | [] => none
  | p :: rest => if p.1 = k then some p.2 else hmLookup k rest

/-! ### RandWeight (src/random_weight.rs)

The `ThreadRng` field is external entropy and is not part of the state; the
value it would produce for `gen_range(0, sum_of_weights)` is an explicit
argument of `next`. -/

structure RandWeightItem (T : Type) where
  item : T
  weight : Int
deriving DecidableEq, Repr

structure RandWeight (T : Type) where
  items : List (RandWeightItem T)
  n : Nat
  sum_of_weights : Int
deriving DecidableEq, Repr

namespace RandWeight

/-- `RandWeight::new()`. -/
def new (T : Type) : RandWeight T :=
  { items := [], n := 0, sum_of_weights := 0 }

/-- The `for item in &self.items { index -= item.weight; if index <= 0 ... }`
walk of `RandWeight::next`.  Returns `none` when the loop falls through. -/
def walk {T : Type} : List (RandWeightItem T) → Int → Option T
  | [], _ => none
  | it :: rest, index =>
    if index - it.weight ≤ 0 then some it.item else walk rest (index - it.weight)

/-- `RandWeight::next()`, with the random draw `r` (the value
`self.r.gen_range(0, self.sum_of_weights)` would yield) passed explicitly.
The outer `none` is a Rust panic: either an out-of-bounds index, or
`gen_range(0, sum)` with `sum <= 0`, whose empty range makes rand panic. -/
def next {T : Type} (s : RandWeight T) (r : Int) : Option (Option T) :=
  if s.n = 0 then some none
  else if s.n = 1 then
    match s.items with
    | [] => none
    | it :: _ => some (some it.item)
  else if s.sum_of_weights ≤ 0 then none
  else
    match walk s.items r with
    | some t => some (some t)
    | none =>
      match s.items.get? (s.n - 1) with
      | none => none
      | some it => some (some it.item)

/-- `RandWeight::add(item, weight)`. -/
def add {T : Type} (s : RandWeight T) (item : T) (weight : Int) : RandWeight T :=
  { s with items := s.items ++ [⟨item, weight⟩],
           n := s.n + 1,
           sum_of_weights := s.sum_of_weights + weight }

/-- `RandWeight::all()`. -/
def all {T : Type} [DecidableEq T] (s : RandWeight T) : List (T × Int) :=
  s.items.foldl (fun rt w => hmInsert w.item w.weight rt) []

/-- `RandWeight::remove_all()`.  Note: the Rust code clears `items`, zeroes
`n` and reseeds the rng, but does NOT touch `sum_of_weights`. -/
def remove_all {T : Type} (s : RandWeight T) : RandWeight T :=
  { s with items := [], n := 0 }

/-- `RandWeight::reset()` only reseeds the rng; the modelled state is
unchanged. -/
def reset {T : Type} (s : RandWeight T) : RandWeight T := s

/-- Sum of the weights of the entries currently held. -/
def entriesSum {T : Type} (s : RandWeight T) : Int :=
  (s.items.map (·.weight)).sum

end RandWeight

/-! ### SmoothWeight (src/smooth_weight.rs) -/

structure SmoothWeightItem (T : Type) where
  item : T
  weight : Int
  current_weight : Int
  effective_weight : Int
deriving DecidableEq, Repr

structure SmoothWeight (T : Type) where
  items : List (SmoothWeightItem T)
  n : Int
deriving DecidableEq, Repr

/-- Replace the element at index `i` (no-op when out of range), used for
`self.items[best_index].current_weight -= total`. -/
def modifyAt {T : Type} (f : T → T) : Nat → List T → List T
  | _, [] => []
  | 0, x :: rest => f x :: rest
  | i + 1, x :: rest => x :: modifyAt f i rest

namespace SmoothWeight

/-- `SmoothWeight::new()`. -/
def new (T : Type) : SmoothWeight T :=
  { items := [], n := 0 }

/-- The `for i in 0..items_len` scan of `next_smooth_weighted`: each entry
gets `current_weight += effective_weight`, `total += effective_weight`, then
`effective_weight` climbs by 1 if it is below `weight`; the running best
(`found`/`best`/`best_index` in Rust, here an `Option` of the best entry copy
and its index) keeps the entry with the strictly greatest `current_weight`,
ties broken by lowest index.  Returns the updated entry list, the total, and
the best. -/
def scan {T : Type} :
    List (SmoothWeightItem T) → Nat → Int → Option (SmoothWeightItem T × Nat) →
    List (SmoothWeightItem T) × Int × Option (SmoothWeightItem T × Nat)
  | [], _, total, best => ([], total, best)
  | w :: rest, idx, total, best =>
    let w1 := { w with current_weight := w.current_weight + w.effective_weight }
    let total1 := total + w1.effective_weight
    let w2 :=
      if w1.effective_weight < w1.weight then
        { w1 with effective_weight := w1.effective_weight + 1 }
      else w1
    let best1 :=
      match best with
      | none => some (w2, idx)
      | some (b, bi) =>
        if b.current_weight < w2.current_weight then some (w2, idx)
        else some (b, bi)
    let r := scan rest (idx + 1) total1 best1
    (w2 :: r.1, r.2.1, r.2.2)

/-- `SmoothWeight::next_smooth_weighted()`.  The outer `none` is the Rust
panic on `self.items[0]` when `items` is empty; the inner `none` is the
`if !found { return None }` branch (unreachable for non-empty `items`). -/
def next_smooth_weighted {T : Type} (s : SmoothWeight T) :
    Option (SmoothWeight T × Option (SmoothWeightItem T)) :=
  match s.items with
  | [] => none
  | _ :: _ =>
    let r := scan s.items 0 0 none
    match r.2.2 with
    | none => some ({ s with items := r.1 }, none)
    | some (best, best_index) =>
      some
        ({ s with
            items :=
              modifyAt
                (fun w => { w with current_weight := w.current_weight - r.2.1 })
                best_index r.1 },
         some best)

/-- `SmoothWeight::next()`.  The outer `none` is a Rust panic. -/
def next {T : Type} (s : SmoothWeight T) : Option (SmoothWeight T × Option T) :=
  if s.n = 0 then some (s, none)
  else if s.n = 1 then
    match s.items with
    | [] => none
    | it :: _ => some (s, some it.item)
  else
    match next_smooth_weighted s with
    | none => none
    | some (s', rt) => some (s', rt.map (·.item))

/-- `SmoothWeight::add(item, weight)`. -/
def add {T : Type} (s : SmoothWeight T) (item : T) (weight : Int) :
    SmoothWeight T :=
  { s with
      items :=
        s.items ++
          [{ item := item, weight := weight, current_weight := 0,
             effective_weight := weight }],
      n := s.n + 1 }

/-- `SmoothWeight::all()`. -/
def all {T : Type} [DecidableEq T] (s : SmoothWeight T) : List (T × Int) :=
  s.items.foldl (fun rt w => hmInsert w.item w.weight rt) []

/-- `SmoothWeight::remove_all()`. -/
def remove_all {T : Type} (s : SmoothWeight T) : SmoothWeight T :=
  { s with items := [], n := 0 }

/-- `SmoothWeight::reset()`. -/
def reset {T : Type} (s : SmoothWeight T) : SmoothWeight T :=
  { s with
      items :=
        s.items.map fun w =>
          { w with current_weight := 0, effective_weight := w.weight } }

/-- States reachable through the public API from `new()`. -/
inductive Reach {T : Type} : SmoothWeight T → Prop where
  | new : Reach (new T)
  | add {s : SmoothWeight T} (x : T) (w : Int) : Reach s → Reach (s.add x w)
  | reset {s : SmoothWeight T} : Reach s → Reach s.reset
  | remove_all {s : SmoothWeight T} : Reach s → Reach s.remove_all
  | next {s s' : SmoothWeight T} {v : Option T} :
      Reach s → s.next = some (s', v) → Reach s'

end SmoothWeight

/-! ### Running a selector for several calls -/

/-- The items produced by `k` consecutive `next()` calls on a
`RoundrobinWeight`; `none` if any call panics or fails to finish within its
fuel. -/
def rrRun {T : Type} : Nat → RoundrobinWeight T → Option (List (Option T))
  | 0, _ => some []
  | k + 1, s =>
    match s.next with
    | .ok s' v => (rrRun k s').map (v :: ·)
    | _ => none

/-- The items produced by `k` consecutive `next()` calls on a
`SmoothWeight`; `none` if any call panics. -/
def smoothRun {T : Type} : Nat → SmoothWeight T → Option (List (Option T))
  | 0, _ => some []
  | k + 1, s =>
    match s.next with
    | some (s', v) => (smoothRun k s').map (v :: ·)
    | none => none

/-- The item of a single `next()` call on a `RoundrobinWeight` (`none` on
panic or exhausted fuel). -/
def rrNextItem {T : Type} (s : RoundrobinWeight T) : Option (Option T) :=
  match s.next with
  | .ok _ v => some v
  | _ => none

/-- The item of a single `next()` call on a `SmoothWeight` (`none` on
panic). -/
def smoothNextItem {T : Type} (s : SmoothWeight T) : Option (Option T) :=
  (s.next).map (·.2)

/-- How many of the produced selections equal `some x`. -/
def countItem {T : Type} [DecidableEq T] (run : Option (List (Option T)))
    (x : T) : Option Nat :=
  run.map (·.count (some x))

/-- A freshly constructed `RoundrobinWeight` given `(item, weight)` pairs in
order. -/
def rrFromList {T : Type} (l : List (T × Int)) : RoundrobinWeight T :=
  l.foldl (fun s p => s.add p.1 p.2) (RoundrobinWeight.new T)

/-- A freshly constructed `SmoothWeight` given `(item, weight)` pairs in
order. -/
def smoothFromList {T : Type} (l : List (T × Int)) : SmoothWeight T :=
  l.foldl (fun s p => s.add p.1 p.2) (SmoothWeight.new T)

/-- The last-added weight for a given item among a list of smooth entries
(what a HashMap built by insertion ends up holding). -/
def lastWeightSmooth {T : Type} [DecidableEq T]
    (l : List (SmoothWeightItem T)) (k : T) : Option Int :=
  (l.reverse.find? (fun w => w.item = k)).map (·.weight)

/-- The last-added weight for a given item among a list of random entries. -/
def lastWeightRand {T : Type} [DecidableEq T]
    (l : List (RandWeightItem T)) (k : T) : Option Int :=
  (l.reverse.find? (fun w => w.item = k)).map (·.weight)

/-! ### Concrete example states used by several claims -/

/-- RoundrobinWeight with entries (0,5), (1,2), (2,3). -/
def rrExample523 : RoundrobinWeight Nat :=
  (((RoundrobinWeight.new Nat).add 0 5).add 1 2).add 2 3

/-- SmoothWeight with entries (0,5), (1,2), (2,3). -/
def swExample523 : SmoothWeight Nat :=
  (((SmoothWeight.new Nat).add 0 5).add 1 2).add 2 3

/-- SmoothWeight with entries (0,5), (1,1), (2,1). -/
def swExample511 : SmoothWeight Nat :=
  (((SmoothWeight.new Nat).add 0 5).add 1 1).add 2 1

/-! ## Helper lemmas -/

/-- For a positive second argument the Rust gcd loop returns a positive
value (it only ever returns a value of `b`, which stays positive). -/
theorem rustGcdAux_pos : ∀ (f : Nat) (a b : Int), 0 < b → 0 < rustGcdAux f a b := by
  intro f
  induction f with
  | zero => intro a b hb; simpa [rustGcdAux] using hb
  | succ f ih =>
    intro a b hb
    simp only [rustGcdAux]
    by_cases ht : 0 < a.tmod b
    · simpa [ht] using ih b (a.tmod b) ht
    · simpa [ht] using hb

theorem rustGcd_pos (x y : Int) (hy : 0 < y) : 0 < rustGcd x y :=
  rustGcdAux_pos _ x y hy

theorem hmLookup_insert {T : Type} [DecidableEq T] (k k' : T) (v : Int) :
    ∀ m : List (T × Int),
      hmLookup k' (hmInsert k v m) =
        if k' = k then some v else hmLookup k' m := by
  intro m
  induction m with
  | nil =>
    by_cases h : k' = k
    · subst h; simp [hmInsert, hmLookup]
    · have h2 : ¬ k = k' := fun e => h e.symm
      simp [hmInsert, hmLookup, h, h2]
  | cons p rest ih =>
    by_cases hp : p.1 = k
    · subst hp
      by_cases h : k' = p.1
      · subst h; simp [hmInsert, hmLookup]
      · have h2 : ¬ p.1 = k' := fun e => h e.symm
        simp [hmInsert, hmLookup, h, h2]
    · by_cases h : p.1 = k'
      · have hk : ¬ k' = k := fun e => hp (by rw [h, e])
        simp [hmInsert, hmLookup, hp, h, hk]
      · simp [hmInsert, hmLookup, hp, h, ih]

namespace SmoothWeight

theorem scan_length {T : Type} :
    ∀ (l : List (SmoothWeightItem T)) (idx : Nat) (tot : Int)
      (best : Option (SmoothWeightItem T × Nat)),
      (scan l idx tot best).1.length = l.length := by
  intro l
  induction l with
  | nil => intro idx tot best; rfl
  | cons w rest ih => intro idx tot best; simp [scan, ih]

/-- The scan changes only `current_weight` and `effective_weight`: items and
nominal weights are untouched. -/
theorem scan_map_iw {T : Type} :
    ∀ (l : List (SmoothWeightItem T)) (idx : Nat) (tot : Int)
      (best : Option (SmoothWeightItem T × Nat)),
      (scan l idx tot best).1.map (fun w => (w.item, w.weight)) =
        l.map (fun w => (w.item, w.weight)) := by
  intro l
  induction l with
  | nil => intro idx tot best; rfl
  | cons w rest ih =>
    intro idx tot best
    by_cases hw : w.effective_weight < w.weight <;> simp [scan, hw, ih]

/-- If every entry has `effective_weight = weight`, the scan preserves
that (the recovery increment never fires). -/
theorem scan_eff {T : Type} :
    ∀ (l : List (SmoothWeightItem T)) (idx : Nat) (tot : Int)
      (best : Option (SmoothWeightItem T × Nat)),
      (∀ w ∈ l, w.effective_weight = w.weight) →
      ∀ w ∈ (scan l idx tot best).1, w.effective_weight = w.weight := by
  intro l
  induction l with
  | nil => intro idx tot best _ w hw; cases hw
  | cons w rest ih =>
    intro idx tot best h x hx
    have hw := h w (List.mem_cons_self w rest)
    have hrest : ∀ y ∈ rest, y.effective_weight = y.weight := fun y hy =>
      h y (List.mem_cons_of_mem w hy)
    simp only [scan] at hx
    have hnot : ¬ w.effective_weight < w.weight := by
      rw [hw]; exact lt_irrefl _
    rcases List.mem_cons.mp hx with hx | hx
    · subst hx
      simp [hnot, hw]
    · exact ih _ _ _ hrest x hx

/-- One step of the running-best update: the produced best is either the
incoming one or the freshly scanned entry. -/
theorem bestStep_from {T : Type} (w2 : SmoothWeightItem T) (idx : Nat)
    (best : Option (SmoothWeightItem T × Nat)) (x : SmoothWeightItem T)
    (bi : Nat) :
    (match best with
      | none => some (w2, idx)
      | some (b, bi0) =>
        if b.current_weight < w2.current_weight then some (w2, idx)
        else some (b, bi0)) = some (x, bi) →
    best = some (x, bi) ∨ x = w2 := by
  intro h
  rcases best with _ | ⟨b, bi0⟩
  · simp only [Option.some.injEq, Prod.mk.injEq] at h
    exact Or.inr h.1.symm
  · simp only at h
    by_cases hc : b.current_weight < w2.current_weight
    · rw [if_pos hc] at h
      simp only [Option.some.injEq, Prod.mk.injEq] at h
      exact Or.inr h.1.symm
    · rw [if_neg hc] at h
      exact Or.inl h

/-- The best entry produced by the scan is either the incoming candidate or
has the item and weight of some entry of the scanned list. -/
theorem scan_best_from {T : Type} :
    ∀ (l : List (SmoothWeightItem T)) (idx : Nat) (tot : Int)
      (best : Option (SmoothWeightItem T × Nat)) (x : SmoothWeightItem T)
      (bi : Nat),
      (scan l idx tot best).2.2 = some (x, bi) →
      best = some (x, bi) ∨
        ∃ w ∈ l, x.item = w.item ∧ x.weight = w.weight := by
  intro l
  induction l with
  | nil => intro idx tot best x bi h; exact Or.inl h
  | cons w rest ih =>
    intro idx tot best x bi h
    simp only [scan] at h
    rcases ih _ _ _ _ _ h with h1 | h1
    · rcases bestStep_from _ _ _ _ _ h1 with h2 | h2
      · exact Or.inl h2
      · refine Or.inr ⟨w, List.mem_cons_self w rest, ?_⟩
        subst h2
        constructor <;> (split <;> rfl)
    · obtain ⟨y, hy, hxy⟩ := h1
      exact Or.inr ⟨y, List.mem_cons_of_mem w hy, hxy⟩

end SmoothWeight

theorem modifyAt_length {T : Type} (f : T → T) :
    ∀ (i : Nat) (l : List T), (modifyAt f i l).length = l.length := by
  intro i l
  induction l generalizing i with
  | nil => cases i <;> rfl
  | cons x rest ih => cases i with
    | zero => rfl
    | succ j => simp [modifyAt, ih]

theorem modifyAt_mem {T : Type} (f : T → T) :
    ∀ (i : Nat) (l : List T) (x : T), x ∈ modifyAt f i l →
      x ∈ l ∨ ∃ y ∈ l, x = f y := by
  intro i l
  induction l generalizing i with
  | nil => intro x hx; cases i <;> cases hx
  | cons z rest ih =>
    intro x hx
    cases i with
    | zero =>
      rcases List.mem_cons.mp hx with h | h
      · exact Or.inr ⟨z, List.mem_cons_self z rest, h⟩
      · exact Or.inl (List.mem_cons_of_mem z h)
    | succ j =>
      rcases List.mem_cons.mp hx with h | h
      · exact Or.inl (h ▸ List.mem_cons_self z rest)
      · rcases ih j x h with h1 | ⟨y, hy, hxy⟩
        · exact Or.inl (List.mem_cons_of_mem z h1)
        · exact Or.inr ⟨y, List.mem_cons_of_mem z hy, hxy⟩

theorem modifyAt_map_iw {T : Type} (t : Int) :
    ∀ (i : Nat) (l : List (SmoothWeightItem T)),
      (modifyAt (fun w => { w with current_weight := w.current_weight - t }) i
          l).map (fun w => (w.item, w.weight)) =
        l.map (fun w => (w.item, w.weight)) := by
  intro i l
  induction l generalizing i with
  | nil => cases i <;> rfl
  | cons x rest ih => cases i with
    | zero => simp [modifyAt]
    | succ j => simp [modifyAt, ih]

/-- Reachable SmoothWeight states keep `n` equal to the number of entries
and every entry's `effective_weight` equal to its nominal `weight`. -/
theorem smooth_reach_inv {T : Type} {s : SmoothWeight T}
    (h : SmoothWeight.Reach s) :
    s.n = (s.items.length : Int) ∧
      ∀ w ∈ s.items, w.effective_weight = w.weight := by
  induction h with
  | new => exact ⟨rfl, by intro w hw; cases hw⟩
  | add x wgt hr ih =>
    obtain ⟨hn, heff⟩ := ih
    constructor
    · simp [SmoothWeight.add, hn]
    · intro w hw
      simp only [SmoothWeight.add, List.mem_append, List.mem_singleton] at hw
      rcases hw with hw | hw
      · exact heff w hw
      · subst hw; rfl
  | reset hr ih =>
    obtain ⟨hn, heff⟩ := ih
    constructor
    · simp [SmoothWeight.reset, hn]
    · intro w hw
      simp only [SmoothWeight.reset, List.mem_map] at hw
      obtain ⟨y, hy, rfl⟩ := hw
      rfl
  | remove_all hr ih =>
    constructor <;> simp [SmoothWeight.remove_all]
  | next hr heq ih =>
    obtain ⟨hn, heff⟩ := ih
    rename_i s s' v
    by_cases h0 : s.n = 0
    · rw [SmoothWeight.next, if_pos h0] at heq
      obtain ⟨rfl, -⟩ : s = s' ∧ none = v := by
        simpa using heq
      exact ⟨hn, heff⟩
    by_cases h1 : s.n = 1
    · rw [SmoothWeight.next, if_neg h0, if_pos h1] at heq
      cases hitem : s.items with
      | nil => rw [hitem] at heq; cases heq
      | cons w rest =>
        rw [hitem] at heq
        obtain ⟨rfl, -⟩ : s = s' ∧ some w.item = v := by
          simpa using heq
        exact ⟨hn, heff⟩
    · rw [SmoothWeight.next, if_neg h0, if_neg h1] at heq
      cases hitem : s.items with
      | nil => rw [SmoothWeight.next_smooth_weighted, hitem] at heq; cases heq
      | cons w rest =>
        rw [SmoothWeight.next_smooth_weighted, hitem] at heq
        simp only at heq
        cases hbest : (SmoothWeight.scan (w :: rest) 0 0 none).2.2 with
        | none =>
          rw [hbest] at heq
          simp only [Option.some.injEq] at heq
          obtain ⟨hs', -⟩ := Prod.ext_iff.mp heq
          subst hs'
          constructor
          · simpa [SmoothWeight.scan_length, hitem] using hn
          · intro y hy
            exact SmoothWeight.scan_eff (w :: rest) 0 0 none
              (by rw [← hitem]; exact heff) y hy
        | some p =>
          obtain ⟨best, best_index⟩ := p
          rw [hbest] at heq
          simp only [Option.some.injEq] at heq
          obtain ⟨hs', -⟩ := Prod.ext_iff.mp heq
          subst hs'
          constructor
          · simpa [modifyAt_length, SmoothWeight.scan_length, hitem] using hn
          · intro y hy
            simp only at hy
            rcases modifyAt_mem _ _ _ _ hy with hy1 | ⟨z, hz, rfl⟩
            · exact SmoothWeight.scan_eff (w :: rest) 0 0 none
                (by rw [← hitem]; exact heff) y hy1
            · exact SmoothWeight.scan_eff (w :: rest) 0 0 none
                (by rw [← hitem]; exact heff) z hz

namespace RoundrobinWeight

theorem stepCheck_eq_crash_neg {T : Type} {s : RoundrobinWeight T}
    (hi : s.i < 0) : stepCheck s = .crash := by
  unfold stepCheck
  rw [if_pos hi]

theorem stepCheck_eq_crash_oob {T : Type} {s : RoundrobinWeight T}
    (hi : ¬ s.i < 0) (hg : s.items.get? s.i.toNat = none) :
    stepCheck s = .crash := by
  unfold stepCheck
  rw [if_neg hi, hg]

theorem stepCheck_eq {T : Type} {s : RoundrobinWeight T}
    {it : RRWeightItem T} (hi : ¬ s.i < 0)
    (hg : s.items.get? s.i.toNat = some it) :
    stepCheck s =
      if s.cw ≤ it.weight then .ret s (some it.item) else .cont s := by
  unfold stepCheck
  rw [if_neg hi, hg]

theorem step_eq_wrap_none {T : Type} {s : RoundrobinWeight T}
    (h0 : (s.i + 1).tmod (s.items.length : Int) = 0)
    (hcw : s.cw - s.gcd ≤ 0) (hmw : s.max_w = 0) :
    step s = .ret { s with i := 0, cw := s.max_w } none := by
  simp only [step]
  rw [if_pos h0, if_pos hcw, if_pos hmw, h0]

theorem step_eq_wrap_reset {T : Type} {s : RoundrobinWeight T}
    (h0 : (s.i + 1).tmod (s.items.length : Int) = 0)
    (hcw : s.cw - s.gcd ≤ 0) (hmw : ¬ s.max_w = 0) :
    step s = stepCheck { s with i := 0, cw := s.max_w } := by
  simp only [step]
  rw [if_pos h0, if_pos hcw, if_neg hmw, h0]

theorem step_eq_wrap_dec {T : Type} {s : RoundrobinWeight T}
    (h0 : (s.i + 1).tmod (s.items.length : Int) = 0)
    (hcw : ¬ s.cw - s.gcd ≤ 0) :
    step s = stepCheck { s with i := 0, cw := s.cw - s.gcd } := by
  simp only [step]
  rw [if_pos h0, if_neg hcw, h0]

theorem step_eq_no_wrap {T : Type} {s : RoundrobinWeight T}
    (h0 : ¬ (s.i + 1).tmod (s.items.length : Int) = 0) :
    step s = stepCheck { s with i := (s.i + 1).tmod (s.items.length : Int) } := by
  simp only [step]
  rw [if_neg h0]

theorem aggStep_ok {T : Type} {gm : Int × Int} (it : RRWeightItem T)
    (h : AggOk gm) : AggOk (aggStep gm it) := by
  by_cases hw : 0 < it.weight
  · by_cases hg : gm.1 = 0
    · simp only [aggStep, hw, hg, if_true, if_pos]
      exact Or.inl ⟨hw, hw⟩
    · rcases h with ⟨h1, h2⟩ | h0
      · by_cases hm : gm.2 < it.weight
        · simp only [aggStep, hw, hg, hm, if_true, if_false, if_pos, if_neg,
            not_false_iff]
          exact Or.inl ⟨rustGcd_pos _ _ hw, hw⟩
        · simp only [aggStep, hw, hg, hm, if_true, if_false, if_pos, if_neg,
            not_false_iff]
          exact Or.inl ⟨rustGcd_pos _ _ hw, h2⟩
      · exact absurd (by rw [h0]) hg
  · simpa only [aggStep, hw, if_neg, not_false_iff, if_false] using h

theorem aggStep_max_mono {T : Type} {gm : Int × Int} (it : RRWeightItem T)
    (h : AggOk gm) : gm.2 ≤ (aggStep gm it).2 := by
  by_cases hw : 0 < it.weight
  · by_cases hg : gm.1 = 0
    · rcases h with ⟨h1, -⟩ | h0
      · exact absurd hg (ne_of_gt h1)
      · simp only [aggStep, hw, hg, if_true]
        rw [h0]
        exact le_of_lt hw
    · by_cases hm : gm.2 < it.weight
      · simp only [aggStep, hw, hg, hm, if_true, if_false]
        exact le_of_lt hm
      · simp only [aggStep, hw, hg, hm, if_true, if_false]
        exact le_refl _
  · simp [aggStep, hw]

theorem foldl_agg_ok {T : Type} :
    ∀ (l : List (RRWeightItem T)) (gm : Int × Int), AggOk gm →
      AggOk (List.foldl aggStep gm l) := by
  intro l
  induction l with
  | nil => intro gm h; exact h
  | cons it rest ih =>
    intro gm h
    exact ih _ (aggStep_ok it h)

theorem agg_ok {T : Type} (l : List (RRWeightItem T)) : AggOk (agg l) :=
  foldl_agg_ok l (0, 0) (Or.inr rfl)

theorem agg_append_singleton {T : Type} (l : List (RRWeightItem T))
    (e : RRWeightItem T) : agg (l ++ [e]) = aggStep (agg l) e := by
  simp [agg, List.foldl_append]

theorem foldl_agg_max_mem {T : Type} :
    ∀ (l : List (RRWeightItem T)) (gm : Int × Int),
      (List.foldl aggStep gm l).2 = gm.2 ∨
        ∃ it ∈ l, it.weight = (List.foldl aggStep gm l).2 := by
  intro l
  induction l with
  | nil => intro gm; exact Or.inl rfl
  | cons it rest ih =>
    intro gm
    rw [List.foldl_cons]
    rcases ih (aggStep gm it) with h | ⟨y, hy, hw2⟩
    · by_cases hw : 0 < it.weight
      · by_cases hg : gm.1 = 0
        · refine Or.inr ⟨it, List.mem_cons_self it rest, ?_⟩
          rw [h]
          simp [aggStep, hw, hg]
        · by_cases hm : gm.2 < it.weight
          · refine Or.inr ⟨it, List.mem_cons_self it rest, ?_⟩
            rw [h]
            simp [aggStep, hw, hg, hm]
          · refine Or.inl ?_
            rw [h]
            simp [aggStep, hw, hg, hm]
      · refine Or.inl ?_
        rw [h]
        simp [aggStep, hw]
    · exact Or.inr ⟨y, List.mem_cons_of_mem it hy, hw2⟩

theorem agg_max_mem {T : Type} (l : List (RRWeightItem T))
    (h : 0 < (agg l).2) : ∃ it ∈ l, it.weight = (agg l).2 := by
  rcases foldl_agg_max_mem l (0, 0) with h0 | hm
  · rw [agg] at h
    rw [h0] at h
    exact absurd h (lt_irrefl 0)
  · exact hm

theorem aggStep_snd_pos_iff {T : Type} (gm : Int × Int)
    (it : RRWeightItem T) :
    0 < (aggStep gm it).2 ↔ 0 < gm.2 ∨ 0 < it.weight := by
  by_cases hw : 0 < it.weight
  · by_cases hg : gm.1 = 0
    · simp only [aggStep, if_pos hw, if_pos hg]
      exact ⟨fun _ => Or.inr hw, fun _ => hw⟩
    · by_cases hm : gm.2 < it.weight
      · simp only [aggStep, if_pos hw, if_neg hg, if_pos hm]
        exact ⟨fun _ => Or.inr hw, fun _ => hw⟩
      · simp only [aggStep, if_pos hw, if_neg hg, if_neg hm]
        refine ⟨fun h2 => Or.inl h2, fun h2 => ?_⟩
        rcases h2 with h2 | h2
        · exact h2
        · exact lt_of_lt_of_le h2 (not_lt.mp hm)
  · simp only [aggStep, if_neg hw]
    refine ⟨fun h2 => Or.inl h2, fun h2 => ?_⟩
    rcases h2 with h2 | h2
    · exact h2
    · exact absurd h2 hw

theorem foldl_agg_pos_iff {T : Type} :
    ∀ (l : List (RRWeightItem T)) (gm : Int × Int),
      (0 < (List.foldl aggStep gm l).2 ↔
        0 < gm.2 ∨ ∃ it ∈ l, 0 < it.weight) := by
  intro l
  induction l with
  | nil => intro gm; simp
  | cons it rest ih =>
    intro gm
    rw [List.foldl_cons, ih, aggStep_snd_pos_iff]
    constructor
    · intro h
      rcases h with (h | h) | ⟨y, hy, hyw⟩
      · exact Or.inl h
      · exact Or.inr ⟨it, List.mem_cons_self it rest, h⟩
      · exact Or.inr ⟨y, List.mem_cons_of_mem it hy, hyw⟩
    · intro h
      rcases h with h | ⟨y, hy, hyw⟩
      · exact Or.inl (Or.inl h)
      · rcases List.mem_cons.mp hy with rfl | hy2
        · exact Or.inl (Or.inr hyw)
        · exact Or.inr ⟨y, hy2, hyw⟩

theorem agg_pos_iff {T : Type} (l : List (RRWeightItem T)) :
    0 < (agg l).2 ↔ ∃ it ∈ l, 0 < it.weight := by
  rw [agg, foldl_agg_pos_iff]
  simp

theorem inv_aggok {T : Type} {s : RoundrobinWeight T} (h : Inv s) :
    AggOk (s.gcd, s.max_w) := by
  rw [h.agg_eq]
  exact agg_ok s.items

theorem inv_gcd_nonneg {T : Type} {s : RoundrobinWeight T} (h : Inv s) :
    0 ≤ s.gcd := by
  rcases inv_aggok h with ⟨h1, -⟩ | h0
  · exact le_of_lt h1
  · have := congrArg Prod.fst h0
    simp only at this
    rw [this]

theorem inv_max_nonneg {T : Type} {s : RoundrobinWeight T} (h : Inv s) :
    0 ≤ s.max_w := by
  rcases inv_aggok h with ⟨-, h2⟩ | h0
  · exact le_of_lt h2
  · have := congrArg Prod.snd h0
    simp only at this
    rw [this]

theorem inv_max_pos_gcd {T : Type} {s : RoundrobinWeight T} (h : Inv s)
    (hm : 0 < s.max_w) : 0 < s.gcd := by
  rcases inv_aggok h with ⟨h1, -⟩ | h0
  · exact h1
  · have := congrArg Prod.snd h0
    simp only at this
    rw [this] at hm
    exact absurd hm (lt_irrefl 0)

theorem inv_max_zero_gcd {T : Type} {s : RoundrobinWeight T} (h : Inv s)
    (hm : s.max_w = 0) : s.gcd = 0 := by
  rcases inv_aggok h with ⟨-, h2⟩ | h0
  · rw [hm] at h2
    exact absurd h2 (lt_irrefl 0)
  · have := congrArg Prod.fst h0
    simpa only using this

theorem inv_max_mem {T : Type} {s : RoundrobinWeight T} (h : Inv s)
    (hm : 0 < s.max_w) : ∃ it ∈ s.items, it.weight = s.max_w := by
  have hsnd : s.max_w = (agg s.items).2 := congrArg Prod.snd h.agg_eq
  rw [hsnd] at hm ⊢
  exact agg_max_mem s.items hm

theorem inv_new {T : Type} : Inv (new T) := by
  refine ⟨rfl, le_refl 0, le_refl 0, by show (-1 : Int) ≤ 0; omega,
    fun _ => by show (0 : Int) ≤ 0; omega, fun h => absurd rfl h⟩

theorem inv_add {T : Type} {s : RoundrobinWeight T} (hInv : Inv s)
    (x : T) (w : Int) : Inv (add s x w) := by
  by_cases hw : 0 < w
  · by_cases hg : s.gcd = 0
    · have hstate : add s x w =
          ⟨s.items ++ [⟨x, w⟩], w, w, -1, 0⟩ := by
        simp [add, hw, hg]
      rw [hstate]
      refine ⟨?_, le_refl 0, le_of_lt hw, by norm_num, ?_, ?_⟩
      · rw [agg_append_singleton, ← hInv.agg_eq]
        simp [aggStep, hw, hg]
      · intro h
        exact absurd h (by simp)
      · intro _
        simp only [List.length_append, List.length_singleton]
        have : (0 : Int) ≤ s.items.length := Int.ofNat_nonneg _
        push_cast
        omega
    · have hstate : add s x w =
          ⟨s.items ++ [⟨x, w⟩], rustGcd s.gcd w,
            if s.max_w < w then w else s.max_w, s.i, s.cw⟩ := by
        simp [add, hw, hg]
      rw [hstate]
      refine ⟨?_, hInv.cw_nonneg, ?_, hInv.i_lb, ?_, ?_⟩
      · rw [agg_append_singleton, ← hInv.agg_eq]
        simp [aggStep, hw, hg]
      · by_cases hm : s.max_w < w
        · rw [if_pos hm]
          exact le_of_lt (lt_of_le_of_lt hInv.cw_le hm)
        · rw [if_neg hm]
          exact hInv.cw_le
      · intro h
        exact absurd h (by simp)
      · intro _
        simp only [List.length_append, List.length_singleton]
        by_cases hnil : s.items = []
        · have := hInv.i_ub_nil hnil
          rw [hnil]
          simp only [List.length_nil]
          omega
        · have := hInv.i_ub hnil
          push_cast at this ⊢
          omega
  · have hstate : add s x w =
        ⟨s.items ++ [⟨x, w⟩], s.gcd, s.max_w, s.i, s.cw⟩ := by
      simp [add, hw]
    rw [hstate]
    refine ⟨?_, hInv.cw_nonneg, hInv.cw_le, hInv.i_lb, ?_, ?_⟩
    · rw [agg_append_singleton, ← hInv.agg_eq]
      simp [aggStep, hw]
    · intro h
      exact absurd h (by simp)
    · intro _
      simp only [List.length_append, List.length_singleton]
      by_cases hnil : s.items = []
      · have := hInv.i_ub_nil hnil
        rw [hnil]
        simp only [List.length_nil]
        omega
      · have := hInv.i_ub hnil
        push_cast at this ⊢
        omega

theorem inv_reset {T : Type} {s : RoundrobinWeight T} (hInv : Inv s) :
    Inv s.reset := by
  refine ⟨hInv.agg_eq, le_refl 0, ?_, by show (-1 : Int) ≤ -1; omega,
    fun _ => by show (-1 : Int) ≤ 0; omega, ?_⟩
  · have hm := inv_max_nonneg hInv
    exact hm
  · intro _
    show (-1 : Int) < (s.items.length : Int)
    have h0 : (0 : Int) ≤ (s.items.length : Int) := Int.ofNat_nonneg _
    omega

theorem inv_remove_all {T : Type} (s : RoundrobinWeight T) :
    Inv s.remove_all := by
  refine ⟨rfl, le_refl 0, le_refl 0, by show (-1 : Int) ≤ -1; omega,
    fun _ => by show (-1 : Int) ≤ 0; omega, fun h => absurd rfl h⟩

theorem stepCheck_ret {T : Type} {s s' : RoundrobinWeight T} {v : Option T}
    (h : stepCheck s = .ret s' v) :
    s' = s ∧ ∀ x, v = some x → ∃ it ∈ s.items, it.item = x := by
  by_cases hi : s.i < 0
  · rw [stepCheck_eq_crash_neg hi] at h
    exact StepRes.noConfusion h
  · rcases hg : s.items.get? s.i.toNat with _ | it
    · rw [stepCheck_eq_crash_oob hi hg] at h
      exact StepRes.noConfusion h
    · rw [stepCheck_eq hi hg] at h
      by_cases hcw : s.cw ≤ it.weight
      · rw [if_pos hcw, StepRes.ret.injEq] at h
        obtain ⟨rfl, rfl⟩ := h
        exact ⟨rfl, fun x hx => ⟨it, List.get?_mem hg, Option.some.inj hx⟩⟩
      · rw [if_neg hcw] at h
        exact StepRes.noConfusion h

theorem stepCheck_cont {T : Type} {s s' : RoundrobinWeight T}
    (h : stepCheck s = .cont s') : s' = s := by
  by_cases hi : s.i < 0
  · rw [stepCheck_eq_crash_neg hi] at h
    exact StepRes.noConfusion h
  · rcases hg : s.items.get? s.i.toNat with _ | it
    · rw [stepCheck_eq_crash_oob hi hg] at h
      exact StepRes.noConfusion h
    · rw [stepCheck_eq hi hg] at h
      by_cases hcw : s.cw ≤ it.weight
      · rw [if_pos hcw] at h
        exact StepRes.noConfusion h
      · rw [if_neg hcw, StepRes.cont.injEq] at h
        exact h.symm

theorem step_ret {T : Type} {s s' : RoundrobinWeight T} {v : Option T}
    (h : step s = .ret s' v) :
    s'.items = s.items ∧ s'.gcd = s.gcd ∧ s'.max_w = s.max_w ∧
      ∀ x, v = some x → ∃ it ∈ s.items, it.item = x := by
  by_cases h0 : (s.i + 1).tmod (s.items.length : Int) = 0
  · by_cases hcw : s.cw - s.gcd ≤ 0
    · by_cases hmw : s.max_w = 0
      · rw [step_eq_wrap_none h0 hcw hmw, StepRes.ret.injEq] at h
        obtain ⟨rfl, rfl⟩ := h
        exact ⟨rfl, rfl, rfl, fun x hx => by cases hx⟩
      · rw [step_eq_wrap_reset h0 hcw hmw] at h
        obtain ⟨rfl, hmem⟩ := stepCheck_ret h
        exact ⟨rfl, rfl, rfl, hmem⟩
    · rw [step_eq_wrap_dec h0 hcw] at h
      obtain ⟨rfl, hmem⟩ := stepCheck_ret h
      exact ⟨rfl, rfl, rfl, hmem⟩
  · rw [step_eq_no_wrap h0] at h
    obtain ⟨rfl, hmem⟩ := stepCheck_ret h
    exact ⟨rfl, rfl, rfl, hmem⟩

theorem step_cont {T : Type} {s s' : RoundrobinWeight T}
    (h : step s = .cont s') :
    s'.items = s.items ∧ s'.gcd = s.gcd ∧ s'.max_w = s.max_w := by
  by_cases h0 : (s.i + 1).tmod (s.items.length : Int) = 0
  · by_cases hcw : s.cw - s.gcd ≤ 0
    · by_cases hmw : s.max_w = 0
      · rw [step_eq_wrap_none h0 hcw hmw] at h
        exact StepRes.noConfusion h
      · rw [step_eq_wrap_reset h0 hcw hmw] at h
        obtain rfl := stepCheck_cont h
        exact ⟨rfl, rfl, rfl⟩
    · rw [step_eq_wrap_dec h0 hcw] at h
      obtain rfl := stepCheck_cont h
      exact ⟨rfl, rfl, rfl⟩
  · rw [step_eq_no_wrap h0] at h
    obtain rfl := stepCheck_cont h
    exact ⟨rfl, rfl, rfl⟩

theorem step_inv {T : Type} {s : RoundrobinWeight T}
    (hn : 2 ≤ s.items.length) (hInv : Inv s) :
    (∀ s', step s = .cont s' → Inv s') ∧
    (∀ s' v, step s = .ret s' v → Inv s') := by
  have hnil : s.items ≠ [] := by
    intro h
    rw [h] at hn
    simp at hn
  have hlen0 : (0 : Int) < (s.items.length : Int) := by
    have h2 : (2 : Int) ≤ (s.items.length : Int) := by exact_mod_cast hn
    omega
  have hi1 : 0 ≤ s.i + 1 := by
    have := hInv.i_lb
    omega
  have htm : (s.i + 1).tmod (s.items.length : Int) =
      (s.i + 1) % (s.items.length : Int) :=
    Int.tmod_eq_emod hi1 (le_of_lt hlen0)
  have h0le : 0 ≤ (s.i + 1).tmod (s.items.length : Int) := by
    rw [htm]
    exact Int.emod_nonneg _ (ne_of_gt hlen0)
  have hlt : (s.i + 1).tmod (s.items.length : Int) < (s.items.length : Int) := by
    rw [htm]
    exact Int.emod_lt_of_pos _ hlen0
  have hmax0 := inv_max_nonneg hInv
  have hgcd0 := inv_gcd_nonneg hInv
  have mk : ∀ i2 cw2 : Int, 0 ≤ i2 → i2 < (s.items.length : Int) →
      0 ≤ cw2 → cw2 ≤ s.max_w → Inv { s with i := i2, cw := cw2 } := by
    intro i2 cw2 h1 h2 h3 h4
    exact ⟨hInv.agg_eq, h3, h4, by show (-1 : Int) ≤ i2; omega,
      fun hnil2 => absurd hnil2 hnil, fun _ => h2⟩
  by_cases h0 : (s.i + 1).tmod (s.items.length : Int) = 0
  · by_cases hcw : s.cw - s.gcd ≤ 0
    · by_cases hmw : s.max_w = 0
      · constructor
        · intro s' hc
          rw [step_eq_wrap_none h0 hcw hmw] at hc
          exact StepRes.noConfusion hc
        · intro s' v hr
          rw [step_eq_wrap_none h0 hcw hmw, StepRes.ret.injEq] at hr
          obtain ⟨rfl, -⟩ := hr
          exact mk 0 s.max_w (le_refl 0) hlen0 hmax0 (le_refl _)
      · have hs2 : Inv { s with i := 0, cw := s.max_w } :=
          mk 0 s.max_w (le_refl 0) hlen0 hmax0 (le_refl _)
        constructor
        · intro s' hc
          rw [step_eq_wrap_reset h0 hcw hmw] at hc
          exact (stepCheck_cont hc) ▸ hs2
        · intro s' v hr
          rw [step_eq_wrap_reset h0 hcw hmw] at hr
          obtain ⟨rfl, -⟩ := stepCheck_ret hr
          exact hs2
    · have hcwle := hInv.cw_le
      have hs2 : Inv { s with i := 0, cw := s.cw - s.gcd } :=
        mk 0 (s.cw - s.gcd) (le_refl 0) hlen0 (by omega) (by omega)
      constructor
      · intro s' hc
        rw [step_eq_wrap_dec h0 hcw] at hc
        exact (stepCheck_cont hc) ▸ hs2
      · intro s' v hr
        rw [step_eq_wrap_dec h0 hcw] at hr
        obtain ⟨rfl, -⟩ := stepCheck_ret hr
        exact hs2
  · have hs2 := mk ((s.i + 1).tmod (s.items.length : Int)) s.cw h0le hlt hInv.cw_nonneg hInv.cw_le
    constructor
    · intro s' hc
      rw [step_eq_no_wrap h0] at hc
      exact (stepCheck_cont hc) ▸ hs2
    · intro s' v hr
      rw [step_eq_no_wrap h0] at hr
      obtain ⟨rfl, -⟩ := stepCheck_ret hr
      exact hs2

theorem loopFuel_inv {T : Type} :
    ∀ (f : Nat) {s s' : RoundrobinWeight T} {v : Option T},
      2 ≤ s.items.length → Inv s → loopFuel f s = .ok s' v → Inv s' := by
  intro f
  induction f with
  | zero => intro s s' v hn hInv h; exact NextRes.noConfusion h
  | succ f ih =>
    intro s s' v hn hInv h
    simp only [loopFuel] at h
    cases hstep : step s with
    | ret s1 v1 =>
      rw [hstep, NextRes.ok.injEq] at h
      obtain ⟨rfl, rfl⟩ := h
      exact (step_inv hn hInv).2 _ _ hstep
    | crash =>
      rw [hstep] at h
      exact NextRes.noConfusion h
    | cont s1 =>
      rw [hstep] at h
      have h1 := (step_inv hn hInv).1 _ hstep
      have hlen : s1.items = s.items := (step_cont hstep).1
      exact ih (by rw [hlen]; exact hn) h1 h

theorem next_inv {T : Type} {s s' : RoundrobinWeight T} {v : Option T}
    (hInv : Inv s) (h : next s = .ok s' v) : Inv s' := by
  unfold next at h
  split at h
  · rw [NextRes.ok.injEq] at h
    obtain ⟨rfl, -⟩ := h
    exact hInv
  · rename_i hlen
    exact loopFuel_inv _ (by omega) hInv h

/-- Every reachable RoundrobinWeight state satisfies the invariant. -/
theorem reach_inv {T : Type} {s : RoundrobinWeight T} (h : Reach s) :
    Inv s := by
  induction h with
  | new => exact inv_new
  | add x w hr ih => exact inv_add ih x w
  | reset hr ih => exact inv_reset ih
  | remove_all hr ih => exact inv_remove_all _
  | next hr heq ih => exact next_inv ih heq

theorem loopFuel_mono {T : Type} :
    ∀ (f g : Nat) {s s' : RoundrobinWeight T} {v : Option T}, f ≤ g →
      loopFuel f s = .ok s' v → loopFuel g s = .ok s' v := by
  intro f
  induction f with
  | zero => intro g s s' v hfg h; exact NextRes.noConfusion h
  | succ f ih =>
    intro g s s' v hfg h
    obtain ⟨g', rfl⟩ : ∃ g', g = g' + 1 := ⟨g - 1, by omega⟩
    simp only [loopFuel] at h ⊢
    cases hstep : step s with
    | ret s1 v1 => rw [hstep] at h; exact h
    | crash => rw [hstep] at h; exact NextRes.noConfusion h
    | cont s1 =>
      rw [hstep] at h
      exact ih g' (by omega) h

/-- While scanning without wrapping: if some entry strictly ahead of the
cursor (at index `j`) satisfies the weight check for the current `cw`, the
loop returns within `j - i` iterations. -/
theorem loop_scan {T : Type} :
    ∀ (d : Nat) (s : RoundrobinWeight T) (j : Nat) (hj : j < s.items.length),
      0 ≤ s.i → s.i < (j : Int) → (j : Int) - s.i ≤ (d : Int) →
      s.cw ≤ (s.items.get ⟨j, hj⟩).weight →
      ∃ s' v, loopFuel d s = .ok s' v := by
  intro d
  induction d with
  | zero =>
    intro s j hj h0 hij hd hcw
    exfalso
    omega
  | succ d ih =>
    intro s j hj h0 hij hd hcw
    have hjlen : (j : Int) < (s.items.length : Int) := by exact_mod_cast hj
    have hi1lt : s.i + 1 < (s.items.length : Int) := by omega
    have htm1 : (s.i + 1).tmod (s.items.length : Int) = s.i + 1 :=
      Int.tmod_eq_of_lt (by omega) hi1lt
    have hi1n0 : ¬ (s.i + 1).tmod (s.items.length : Int) = 0 := by
      rw [htm1]
      omega
    have hstep := step_eq_no_wrap hi1n0
    rw [htm1] at hstep
    have hidx : (s.i + 1).toNat < s.items.length := by omega
    have hg1 : s.items.get? (s.i + 1).toNat =
        some (s.items.get ⟨(s.i + 1).toNat, hidx⟩) :=
      List.get?_eq_get hidx
    have hnneg : ¬ ({ s with i := s.i + 1 } : RoundrobinWeight T).i < 0 := by
      show ¬ s.i + 1 < 0
      omega
    by_cases hch : s.cw ≤ (s.items.get ⟨(s.i + 1).toNat, hidx⟩).weight
    · have hsc : stepCheck ({ s with i := s.i + 1 } : RoundrobinWeight T) =
          .ret { s with i := s.i + 1 }
            (some (s.items.get ⟨(s.i + 1).toNat, hidx⟩).item) := by
        rw [stepCheck_eq hnneg hg1, if_pos hch]
      refine ⟨{ s with i := s.i + 1 },
        some (s.items.get ⟨(s.i + 1).toNat, hidx⟩).item, ?_⟩
      simp only [loopFuel, hstep, hsc]
    · have hsc : stepCheck ({ s with i := s.i + 1 } : RoundrobinWeight T) =
          .cont { s with i := s.i + 1 } := by
        rw [stepCheck_eq hnneg hg1, if_neg hch]
      have hne : ¬ s.i + 1 = (j : Int) := by
        intro he
        apply hch
        have hval : (s.i + 1).toNat = j := by omega
        have hfin : (⟨(s.i + 1).toNat, hidx⟩ : Fin s.items.length) = ⟨j, hj⟩ :=
          Fin.ext hval
        rw [hfin]
        exact hcw
      obtain ⟨s', v, hok⟩ := ih { s with i := s.i + 1 } j hj
        (by show (0 : Int) ≤ s.i + 1; omega)
        (by show s.i + 1 < (j : Int); omega)
        (by show (j : Int) - (s.i + 1) ≤ (d : Int); push_cast at hd ⊢; omega)
        hcw
      refine ⟨s', v, ?_⟩
      simp only [loopFuel, hstep, hsc]
      exact hok

/-- A wrapping iteration either returns (`None` when `max_w = 0`) or resets
the countdown into `(0, max_w]`, after which a single sweep reaches the
maximal-weight entry; so the loop returns within `length + 1` iterations. -/
theorem loop_wrap {T : Type} (s : RoundrobinWeight T)
    (hn : 2 ≤ s.items.length) (hInv : Inv s)
    (h0 : (s.i + 1).tmod (s.items.length : Int) = 0) :
    ∃ s' v, loopFuel (s.items.length + 1) s = .ok s' v := by
  have hmax0 := inv_max_nonneg hInv
  have hgcd0 := inv_gcd_nonneg hInv
  have hcwle := hInv.cw_le
  have hcw0 := hInv.cw_nonneg
  by_cases hmw : s.max_w = 0
  · have hgcd := inv_max_zero_gcd hInv hmw
    have hcwa : s.cw - s.gcd ≤ 0 := by omega
    have hstep := step_eq_wrap_none h0 hcwa hmw
    have h1 : loopFuel 1 s = .ok { s with i := 0, cw := s.max_w } none := by
      simp only [loopFuel, hstep]
    exact ⟨_, _, loopFuel_mono 1 _ (by omega) h1⟩
  · have hmaxpos : 0 < s.max_w := lt_of_le_of_ne hmax0 (Ne.symm hmw)
    obtain ⟨jt, hjt, hwj⟩ := inv_max_mem hInv hmaxpos
    obtain ⟨fi, hfi⟩ := List.mem_iff_get.mp hjt
    have main : ∀ c0 : Int, 0 < c0 → c0 ≤ s.max_w →
        step s = stepCheck { s with i := 0, cw := c0 } →
        ∃ s' v, loopFuel (s.items.length + 1) s = .ok s' v := by
      intro c0 hc0pos hc0le hstep
      have h0lt : 0 < s.items.length := by omega
      have hg0 : s.items.get? (0 : Int).toNat =
          some (s.items.get ⟨0, h0lt⟩) := by
        have : (0 : Int).toNat = 0 := rfl
        rw [this]
        exact List.get?_eq_get h0lt
      have hnneg : ¬ ({ s with i := 0, cw := c0 } : RoundrobinWeight T).i < 0 := by
        show ¬ (0 : Int) < 0
        omega
      by_cases hch : c0 ≤ (s.items.get ⟨0, h0lt⟩).weight
      · have hsc : stepCheck ({ s with i := 0, cw := c0 } : RoundrobinWeight T) =
            .ret { s with i := 0, cw := c0 }
              (some (s.items.get ⟨0, h0lt⟩).item) := by
          rw [stepCheck_eq hnneg hg0, if_pos hch]
        have h1 : loopFuel 1 s =
            .ok { s with i := 0, cw := c0 }
              (some (s.items.get ⟨0, h0lt⟩).item) := by
          simp only [loopFuel, hstep, hsc]
        exact ⟨_, _, loopFuel_mono 1 _ (by omega) h1⟩
      · have hsc : stepCheck ({ s with i := 0, cw := c0 } : RoundrobinWeight T) =
            .cont { s with i := 0, cw := c0 } := by
          rw [stepCheck_eq hnneg hg0, if_neg hch]
        have hfipos : 0 < fi.val := by
          rcases Nat.eq_zero_or_pos fi.val with hz | hp
          · exfalso
            apply hch
            have hfin : fi = ⟨0, h0lt⟩ := Fin.ext hz
            rw [hfin] at hfi
            rw [hfi, hwj]
            exact hc0le
          · exact hp
        have hwfi : ({ s with i := 0, cw := c0 } : RoundrobinWeight T).cw ≤
            (s.items.get ⟨fi.val, fi.isLt⟩).weight := by
          show c0 ≤ (s.items.get ⟨fi.val, fi.isLt⟩).weight
          have : s.items.get ⟨fi.val, fi.isLt⟩ = jt := by
            rw [← hfi]
          rw [this, hwj]
          exact hc0le
        obtain ⟨s', v, hok⟩ := loop_scan s.items.length
          { s with i := 0, cw := c0 } fi.val fi.isLt
          (by show (0 : Int) ≤ 0; omega)
          (by show (0 : Int) < (fi.val : Int); exact_mod_cast hfipos)
          (by
            show (fi.val : Int) - 0 ≤ (s.items.length : Int)
            have : fi.val < s.items.length := fi.isLt
            omega)
          hwfi
        refine ⟨s', v, ?_⟩
        have : loopFuel (s.items.length + 1) s =
            loopFuel s.items.length { s with i := 0, cw := c0 } := by
          simp only [loopFuel, hstep, hsc]
        rw [this]
        exact hok
    by_cases hcw : s.cw - s.gcd ≤ 0
    · exact main s.max_w hmaxpos (le_refl _) (step_eq_wrap_reset h0 hcw hmw)
    · exact main (s.cw - s.gcd) (by omega) (by omega)
        (step_eq_wrap_dec h0 hcw)

/-- From any non-wrap position the loop reaches the wrap within the rest of
the sweep (or returns earlier). -/
theorem loop_to_wrap {T : Type} :
    ∀ (d : Nat) (s : RoundrobinWeight T), 2 ≤ s.items.length → Inv s →
      0 ≤ s.i → s.i < (s.items.length : Int) - 1 →
      (s.items.length : Int) - 1 - s.i ≤ (d : Int) →
      ∃ s' v, loopFuel (d + (s.items.length + 1)) s = .ok s' v := by
  intro d
  induction d with
  | zero =>
    intro s hn hInv h0 hlt hd
    exfalso
    omega
  | succ d ih =>
    intro s hn hInv h0 hlt hd
    have hi1lt : s.i + 1 < (s.items.length : Int) := by omega
    have htm1 : (s.i + 1).tmod (s.items.length : Int) = s.i + 1 :=
      Int.tmod_eq_of_lt (by omega) hi1lt
    have hi1n0 : ¬ (s.i + 1).tmod (s.items.length : Int) = 0 := by
      rw [htm1]
      omega
    have hstep := step_eq_no_wrap hi1n0
    rw [htm1] at hstep
    have hidx : (s.i + 1).toNat < s.items.length := by omega
    have hg1 : s.items.get? (s.i + 1).toNat =
        some (s.items.get ⟨(s.i + 1).toNat, hidx⟩) :=
      List.get?_eq_get hidx
    have hnneg : ¬ ({ s with i := s.i + 1 } : RoundrobinWeight T).i < 0 := by
      show ¬ s.i + 1 < 0
      omega
    by_cases hch : s.cw ≤ (s.items.get ⟨(s.i + 1).toNat, hidx⟩).weight
    · have hsc : stepCheck ({ s with i := s.i + 1 } : RoundrobinWeight T) =
          .ret { s with i := s.i + 1 }
            (some (s.items.get ⟨(s.i + 1).toNat, hidx⟩).item) := by
        rw [stepCheck_eq hnneg hg1, if_pos hch]
      have h1 : loopFuel 1 s = .ok { s with i := s.i + 1 }
          (some (s.items.get ⟨(s.i + 1).toNat, hidx⟩).item) := by
        simp only [loopFuel, hstep, hsc]
      exact ⟨_, _, loopFuel_mono 1 _ (by omega) h1⟩
    · have hsc : stepCheck ({ s with i := s.i + 1 } : RoundrobinWeight T) =
          .cont { s with i := s.i + 1 } := by
        rw [stepCheck_eq hnneg hg1, if_neg hch]
      have hInv1 : Inv ({ s with i := s.i + 1 } : RoundrobinWeight T) :=
        (step_inv hn hInv).1 _ (by rw [hstep, hsc])
      by_cases hend : s.i + 1 = (s.items.length : Int) - 1
      · obtain ⟨s', v, hok⟩ := loop_wrap { s with i := s.i + 1 } hn hInv1
          (by
            show (s.i + 1 + 1).tmod (s.items.length : Int) = 0
            have : s.i + 1 + 1 = (s.items.length : Int) := by omega
            rw [this]
            exact Int.tmod_self)
        refine ⟨s', v, ?_⟩
        have hfuel : d + 1 + (s.items.length + 1) =
            d + (s.items.length + 1) + 1 := by omega
        rw [hfuel]
        simp only [loopFuel, hstep, hsc]
        exact loopFuel_mono (s.items.length + 1) (d + (s.items.length + 1))
          (by omega) hok
      · obtain ⟨s', v, hok⟩ := ih { s with i := s.i + 1 } hn hInv1
          (by show (0 : Int) ≤ s.i + 1; omega)
          (by show s.i + 1 < (s.items.length : Int) - 1; omega)
          (by
            show (s.items.length : Int) - 1 - (s.i + 1) ≤ (d : Int)
            push_cast at hd ⊢
            omega)
        refine ⟨s', v, ?_⟩
        have hfuel : d + 1 + (s.items.length + 1) =
            d + (s.items.length + 1) + 1 := by omega
        rw [hfuel]
        simp only [loopFuel, hstep, hsc]
        exact hok

/-- The search loop of `next()` returns within `2 * length + 2` iterations
from any invariant-satisfying state with at least two entries. -/
theorem loop_terminates {T : Type} (s : RoundrobinWeight T)
    (hn : 2 ≤ s.items.length) (hInv : Inv s) :
    ∃ s' v, loopFuel (2 * s.items.length + 2) s = .ok s' v := by
  have hnil : s.items ≠ [] := by
    intro h
    rw [h] at hn
    simp at hn
  have hiub := hInv.i_ub hnil
  have hilb := hInv.i_lb
  by_cases h0 : (s.i + 1).tmod (s.items.length : Int) = 0
  · obtain ⟨s', v, hok⟩ := loop_wrap s hn hInv h0
    exact ⟨s', v, loopFuel_mono _ _ (by omega) hok⟩
  · have hipos : 0 ≤ s.i := by
      rcases eq_or_lt_of_le hilb with he | hlt2
      · exfalso
        apply h0
        rw [← he]
        simp
      · omega
    have hlt1 : s.i < (s.items.length : Int) - 1 := by
      rcases lt_or_eq_of_le (by omega : s.i ≤ (s.items.length : Int) - 1)
        with hlt | he
      · exact hlt
      · exfalso
        apply h0
        have : s.i + 1 = (s.items.length : Int) := by omega
        rw [this]
        exact Int.tmod_self
    obtain ⟨s', v, hok⟩ := loop_to_wrap s.items.length s hn hInv hipos hlt1
      (by
        have h2 : (2 : Int) ≤ (s.items.length : Int) := by exact_mod_cast hn
        omega)
    exact ⟨s', v, loopFuel_mono _ _ (by omega) hok⟩

theorem loopFuel_ok_mem {T : Type} :
    ∀ (f : Nat) (s s' : RoundrobinWeight T) (x : T),
      loopFuel f s = .ok s' (some x) → ∃ it ∈ s.items, it.item = x := by
  intro f
  induction f with
  | zero => intro s s' x h; cases h
  | succ f ih =>
    intro s s' x h
    simp only [loopFuel] at h
    cases hstep : step s with
    | ret s1 v =>
      rw [hstep] at h
      rw [NextRes.ok.injEq] at h
      obtain ⟨rfl, rfl⟩ := h
      exact (step_ret hstep).2.2.2 x rfl
    | crash => rw [hstep] at h; exact NextRes.noConfusion h
    | cont s1 =>
      rw [hstep] at h
      have hm := ih s1 s' x h
      rw [(step_cont hstep).1] at hm
      exact hm

/-- Whenever `next()` completes and returns an item, that item belongs to one
of the entries. -/
theorem rr_next_ok_mem {T : Type} {s s' : RoundrobinWeight T} {x : T}
    (h : next s = .ok s' (some x)) : ∃ it ∈ s.items, it.item = x := by
  unfold next at h
  split at h
  · rw [NextRes.ok.injEq] at h
    obtain ⟨rfl, hv⟩ := h
    obtain ⟨it, hit, rfl⟩ := Option.map_eq_some'.mp hv
    exact ⟨it, List.mem_of_mem_head? (hit ▸ rfl), rfl⟩
  · exact loopFuel_ok_mem _ _ _ _ h

end RoundrobinWeight

namespace RandWeight

theorem walk_mem {T : Type} :
    ∀ (l : List (RandWeightItem T)) (r : Int) (x : T),
      walk l r = some x → ∃ it ∈ l, it.item = x := by
  intro l
  induction l with
  | nil => intro r x h; cases h
  | cons it rest ih =>
    intro r x h
    unfold walk at h
    split at h
    · exact ⟨it, List.mem_cons_self it rest, Option.some.inj h⟩
    · obtain ⟨y, hy, hxy⟩ := ih _ x h
      exact ⟨y, List.mem_cons_of_mem it hy, hxy⟩

/-- Whenever `next()` completes and returns an item, that item belongs to one
of the entries (for any random draw). -/
theorem rand_next_ok_mem {T : Type} {s : RandWeight T} {r : Int} {x : T}
    (h : next s r = some (some x)) : ∃ it ∈ s.items, it.item = x := by
  unfold next at h
  split at h
  · cases Option.some.inj h
  split at h
  · rcases hitem : s.items with _ | ⟨it, rest⟩ <;> rw [hitem] at h
    · cases h
    · exact ⟨it, hitem ▸ List.mem_cons_self it rest, by
        have := Option.some.inj h; exact Option.some.inj this⟩
  split at h
  · cases h
  · rcases hw : walk s.items r with _ | y <;> rw [hw] at h
    · rcases hg : s.items.get? (s.n - 1) with _ | it <;> rw [hg] at h
      · cases h
      · exact ⟨it, List.get?_mem hg, by
          have := Option.some.inj h; exact Option.some.inj this⟩
    · obtain ⟨it, hit, hx⟩ := walk_mem s.items r y hw
      exact ⟨it, hit, by
        have := Option.some.inj h
        rw [hx]; exact Option.some.inj this⟩

end RandWeight

namespace SmoothWeight

/-- Whenever `next()` completes and returns an item, some entry carries that
item (and the selected entry's nominal weight equals that entry's). -/
theorem smooth_next_ok_mem {T : Type} {s s' : SmoothWeight T} {x : T}
    (h : next s = some (s', some x)) : ∃ w ∈ s.items, w.item = x := by
  unfold next at h
  split at h
  · obtain ⟨-, hv⟩ := Prod.ext_iff.mp (Option.some.inj h)
    cases hv
  split at h
  · rcases hitem : s.items with _ | ⟨w, rest⟩ <;> rw [hitem] at h
    · cases h
    · obtain ⟨-, hv⟩ := Prod.ext_iff.mp (Option.some.inj h)
      exact ⟨w, hitem ▸ List.mem_cons_self w rest, Option.some.inj hv⟩
  · rcases hitem : s.items with _ | ⟨w, rest⟩
    · rw [next_smooth_weighted, hitem] at h; cases h
    · rw [next_smooth_weighted, hitem] at h
      simp only at h
      cases hbest : (scan (w :: rest) 0 0 none).2.2 with
      | none =>
        rw [hbest] at h
        obtain ⟨-, hv⟩ := Prod.ext_iff.mp (Option.some.inj h)
        cases hv
      | some p =>
        obtain ⟨best, best_index⟩ := p
        rw [hbest] at h
        obtain ⟨-, hv⟩ := Prod.ext_iff.mp (Option.some.inj h)
        obtain rfl : best.item = x := Option.some.inj hv
        rcases scan_best_from (w :: rest) 0 0 none best best_index hbest with
          h1 | ⟨y, hy, hxy, -⟩
        · cases h1
        · exact ⟨y, hitem ▸ hy, hxy.symm⟩

end SmoothWeight

/-- Looking up a key in the HashMap built by inserting the `(item, weight)`
pairs of a list (left to right) yields the weight of the last entry with that
item, falling back to the initial map. -/
theorem foldl_insert_lookup {T α : Type} [DecidableEq T]
    (item : α → T) (weight : α → Int) :
    ∀ (l : List α) (m : List (T × Int)) (k : T),
      hmLookup k (l.foldl (fun rt w => hmInsert (item w) (weight w) rt) m) =
        match l.reverse.find? (fun w => item w = k) with
        | some w => some (weight w)
        | none => hmLookup k m := by
  intro l
  induction l with
  | nil => intro m k; rfl
  | cons w rest ih =>
    intro m k
    simp only [List.foldl_cons, List.reverse_cons, List.find?_append]
    rw [ih]
    cases hf : rest.reverse.find? (fun w => decide (item w = k)) with
    | some w' => simp [Option.or]
    | none =>
      by_cases hk : item w = k
      · simp [Option.or, List.find?, hk, hmLookup_insert]
      · have hk2 : ¬ k = item w := fun e => hk e.symm
        simp [Option.or, List.find?, hk, hk2, hmLookup_insert]

theorem agg_fst_zero_iff {T : Type} (l : List (RRWeightItem T)) :
    (RoundrobinWeight.agg l).1 = 0 ↔ ¬ ∃ it ∈ l, 0 < it.weight := by
  constructor
  · intro h hpos
    rw [← RoundrobinWeight.agg_pos_iff] at hpos
    rcases RoundrobinWeight.agg_ok l with ⟨h1, -⟩ | h0
    · rw [h] at h1
      exact absurd h1 (lt_irrefl 0)
    · have h2 := congrArg Prod.snd h0
      simp only at h2
      rw [h2] at hpos
      exact absurd hpos (lt_irrefl 0)
  · intro h
    rcases RoundrobinWeight.agg_ok l with ⟨-, h2⟩ | h0
    · exact absurd ((RoundrobinWeight.agg_pos_iff l).mp h2) h
    · have h1 := congrArg Prod.fst h0
      simpa only using h1

/-- A freshly constructed SmoothWeight holds exactly the added entries with
`current_weight = 0` and `effective_weight = weight`, and `n` equal to the
count. -/
theorem smoothFromList_spec {T : Type} :
    ∀ l : List (T × Int),
      smoothFromList l =
        ⟨l.map (fun p => ⟨p.1, p.2, 0, p.2⟩), (l.length : Int)⟩ := by
  have gen : ∀ (l : List (T × Int)) (s0 : SmoothWeight T),
      List.foldl (fun s p => SmoothWeight.add s p.1 p.2) s0 l =
        ⟨s0.items ++ l.map (fun p => ⟨p.1, p.2, 0, p.2⟩),
          s0.n + (l.length : Int)⟩ := by
    intro l
    induction l with
    | nil => intro s0; simp
    | cons p rest ih =>
      intro s0
      rw [List.foldl_cons, ih]
      simp only [SmoothWeight.add, SmoothWeight.mk.injEq, List.map_cons,
        List.append_assoc, List.singleton_append, List.length_cons]
      constructor
      · trivial
      · push_cast
        ring
  intro l
  rw [smoothFromList, gen]
  simp [SmoothWeight.new]

/-- A freshly constructed RoundrobinWeight holds the added entries, the
aggregates computed by `agg`, cursor `-1` exactly when some added weight is
positive (`0` otherwise, as in `new()`), and countdown `0`. -/
theorem rrFromList_spec {T : Type} :
    ∀ l : List (T × Int),
      rrFromList l =
        ⟨l.map (fun p => ⟨p.1, p.2⟩),
          (RoundrobinWeight.agg
            (l.map (fun p => (⟨p.1, p.2⟩ : RRWeightItem T)))).1,
          (RoundrobinWeight.agg
            (l.map (fun p => (⟨p.1, p.2⟩ : RRWeightItem T)))).2,
          if ∃ q ∈ l, 0 < q.2 then -1 else 0, 0⟩ := by
  intro l
  induction l using List.reverseRecOn with
  | nil => rfl
  | append_singleton l p ih =>
    have hfold : rrFromList (l ++ [p]) = (rrFromList l).add p.1 p.2 := by
      simp [rrFromList, List.foldl_append]
    have hmapapp :
        (l ++ [p]).map (fun p => (⟨p.1, p.2⟩ : RRWeightItem T)) =
          l.map (fun p => (⟨p.1, p.2⟩ : RRWeightItem T)) ++ [⟨p.1, p.2⟩] := by
      simp
    rw [hfold, ih]
    by_cases hp : 0 < p.2
    · have hex : ∃ q ∈ l ++ [p], 0 < q.2 := ⟨p, by simp, hp⟩
      by_cases hgz :
          (RoundrobinWeight.agg
            (l.map (fun p => (⟨p.1, p.2⟩ : RRWeightItem T)))).1 = 0
      · have hstate :
            RoundrobinWeight.add
              (⟨l.map (fun p => ⟨p.1, p.2⟩),
                (RoundrobinWeight.agg
                  (l.map (fun p => (⟨p.1, p.2⟩ : RRWeightItem T)))).1,
                (RoundrobinWeight.agg
                  (l.map (fun p => (⟨p.1, p.2⟩ : RRWeightItem T)))).2,
                if ∃ q ∈ l, 0 < q.2 then -1 else 0, 0⟩ :
                RoundrobinWeight T) p.1 p.2 =
              ⟨l.map (fun p => ⟨p.1, p.2⟩) ++ [⟨p.1, p.2⟩], p.2, p.2,
                -1, 0⟩ := by
          simp [RoundrobinWeight.add, hp, hgz]
        rw [hstate, hmapapp, RoundrobinWeight.agg_append_singleton]
        simp only [RoundrobinWeight.aggStep, hp, hgz, if_true, if_pos]
        rw [if_pos hex]
      · have hexl : ∃ q ∈ l, 0 < q.2 := by
          by_contra hno
          exact hgz ((agg_fst_zero_iff _).mpr (by
            intro ⟨it, hit, hw⟩
            obtain ⟨q, hq, rfl⟩ := List.mem_map.mp hit
            exact hno ⟨q, hq, hw⟩))
        have hstate :
            RoundrobinWeight.add
              (⟨l.map (fun p => ⟨p.1, p.2⟩),
                (RoundrobinWeight.agg
                  (l.map (fun p => (⟨p.1, p.2⟩ : RRWeightItem T)))).1,
                (RoundrobinWeight.agg
                  (l.map (fun p => (⟨p.1, p.2⟩ : RRWeightItem T)))).2,
                if ∃ q ∈ l, 0 < q.2 then -1 else 0, 0⟩ :
                RoundrobinWeight T) p.1 p.2 =
              ⟨l.map (fun p => ⟨p.1, p.2⟩) ++ [⟨p.1, p.2⟩],
                rustGcd
                  (RoundrobinWeight.agg
                    (l.map (fun p => (⟨p.1, p.2⟩ : RRWeightItem T)))).1 p.2,
                if (RoundrobinWeight.agg
                    (l.map (fun p => (⟨p.1, p.2⟩ : RRWeightItem T)))).2 < p.2
                then p.2
                else (RoundrobinWeight.agg
                  (l.map (fun p => (⟨p.1, p.2⟩ : RRWeightItem T)))).2,
                if ∃ q ∈ l, 0 < q.2 then -1 else 0, 0⟩ := by
          simp [RoundrobinWeight.add, hp, hgz]
        rw [hstate, hmapapp, RoundrobinWeight.agg_append_singleton]
        simp only [RoundrobinWeight.aggStep, hp, hgz, if_true, if_false,
          if_neg, not_false_iff]
        rw [if_pos hex, if_pos hexl]
    · have hiff : (∃ q ∈ l ++ [p], 0 < q.2) ↔ ∃ q ∈ l, 0 < q.2 := by
        constructor
        · intro ⟨q, hq, hw⟩
          rcases List.mem_append.mp hq with hq | hq
          · exact ⟨q, hq, hw⟩
          · rw [List.mem_singleton.mp hq] at hw
            exact absurd hw hp
        · intro ⟨q, hq, hw⟩
          exact ⟨q, List.mem_append_left _ hq, hw⟩
      have hstate :
          RoundrobinWeight.add
            (⟨l.map (fun p => ⟨p.1, p.2⟩),
              (RoundrobinWeight.agg
                (l.map (fun p => (⟨p.1, p.2⟩ : RRWeightItem T)))).1,
              (RoundrobinWeight.agg
                (l.map (fun p => (⟨p.1, p.2⟩ : RRWeightItem T)))).2,
              if ∃ q ∈ l, 0 < q.2 then -1 else 0, 0⟩ :
              RoundrobinWeight T) p.1 p.2 =
            ⟨l.map (fun p => ⟨p.1, p.2⟩) ++ [⟨p.1, p.2⟩],
              (RoundrobinWeight.agg
                (l.map (fun p => (⟨p.1, p.2⟩ : RRWeightItem T)))).1,
              (RoundrobinWeight.agg
                (l.map (fun p => (⟨p.1, p.2⟩ : RRWeightItem T)))).2,
              if ∃ q ∈ l, 0 < q.2 then -1 else 0, 0⟩ := by
        simp [RoundrobinWeight.add, hp]
      rw [hstate, hmapapp, RoundrobinWeight.agg_append_singleton]
      simp only [RoundrobinWeight.aggStep, hp, if_false]
      rw [if_congr hiff rfl rfl]

/-! ## Claim theorems -/

/-- C1: for a RoundrobinWeight selector and a SmoothWeight selector freshly
constructed and given three entries with weights 5, 2, 3 (in that order), the
first 10 calls to next() return the first entry exactly 5 times, the second
exactly 2 times, and the third exactly 3 times (and all 10 calls complete). -/
theorem C1_proportionality_5_2_3 :
    (rrRun 10 rrExample523).map List.length = some 10 ∧
    countItem (rrRun 10 rrExample523) 0 = some 5 ∧
    countItem (rrRun 10 rrExample523) 1 = some 2 ∧
    countItem (rrRun 10 rrExample523) 2 = some 3 ∧
    (smoothRun 10 swExample523).map List.length = some 10 ∧
    countItem (smoothRun 10 swExample523) 0 = some 5 ∧
    countItem (smoothRun 10 swExample523) 1 = some 2 ∧
    countItem (smoothRun 10 swExample523) 2 = some 3 := by
  decide

/-- C2: for a SmoothWeight selector freshly constructed and given entries
a, b, c (here 0, 1, 2) with weights 5, 1, 1 in that order, the first 7 calls
to next() return exactly the sequence a, a, b, a, c, a, a. -/
theorem C2_smooth_sequence_aabacaa :
    smoothRun 7 swExample511 =
      some [some 0, some 0, some 1, some 0, some 2, some 0, some 0] := by
  decide

/-- C3 counterexample: a reachable SmoothWeight state with two entries, both
of weight 0, on which next() returns item 0 — an item whose entry has weight
zero — refuting "next() never returns an item whose entry has weight zero or
negative in every reachable state". -/
theorem C3_counterexample_zero_weight_selected :
    smoothNextItem (((SmoothWeight.new Nat).add 0 0).add 1 0) =
      some (some 0) ∧
    (((SmoothWeight.new Nat).add 0 0).add 1 0).items.map (·.weight) =
      [0, 0] := by
  decide

/-- C4: on a RandWeight holding two entries with weights -2 and -3
(sum_of_weights = -5 ≤ 0), next() does not return None: it panics, because
the code calls gen_range(0, sum_of_weights) with an empty range instead of
guarding sum_of_weights ≤ 0 (modelled as the outer `none`).  On a
SmoothWeight with the same entries, next() returns Some(first item) rather
than the empty result. -/
theorem C4_nonpositive_weights_do_not_yield_none :
    ((((RandWeight.new Nat).add 0 (-2)).add 1 (-3)).next 0 = none) ∧
    (smoothNextItem (((SmoothWeight.new Nat).add 0 (-2)).add 1 (-3)) =
      some (some 0)) := by
  decide

/-- C5: RandWeight::remove_all does not reset sum_of_weights, so after
add(0,5); remove_all(); add(1,2) the stored sum_of_weights is 7 while the
entries currently held sum to 2 — the claimed invariant fails. -/
theorem C5_sum_of_weights_residual_after_remove_all :
    ((((RandWeight.new Nat).add 0 5).remove_all).add 1 2).sum_of_weights = 7 ∧
    ((((RandWeight.new Nat).add 0 5).remove_all).add 1 2).entriesSum = 2 := by
  decide

/-- C8 counterexample: a RoundrobinWeight freshly given two weight-0 entries
produces the next()-sequence [Some 1, None, ...], but after reset() the same
selector produces [None, Some 1, ...] (reset sets the cursor i to -1 while
new() starts it at 0), so the post-reset sequence differs from the one of a
freshly constructed selector with the same entries, refuting the claim; the
entries themselves (all()) are unchanged by reset. -/
theorem C8_counterexample_reset_differs_from_fresh :
    RoundrobinWeight.all
        (RoundrobinWeight.reset (((RoundrobinWeight.new Nat).add 0 0).add 1 0)) =
      RoundrobinWeight.all (((RoundrobinWeight.new Nat).add 0 0).add 1 0) ∧
    rrRun 2 (((RoundrobinWeight.new Nat).add 0 0).add 1 0) =
      some [some 1, none] ∧
    rrRun 2 (RoundrobinWeight.reset (((RoundrobinWeight.new Nat).add 0 0).add 1 0)) =
      some [none, some 1] := by
  decide

/-- C9 counterexample: a SmoothWeight given the same item twice (weights 1
then 2) holds two entries, but all() contains a single pair (the HashMap
insert collapses duplicate item values, keeping the last weight), refuting
"one (item, weight) pair for every entry ... including entries added with a
duplicate item value". -/
theorem C9_counterexample_duplicate_items_collapse :
    (((SmoothWeight.new Nat).add 0 1).add 0 2).items.length = 2 ∧
    SmoothWeight.all (((SmoothWeight.new Nat).add 0 1).add 0 2) = [(0, 2)] := by
  decide

/-- C7: for every selector (RoundrobinWeight, RandWeight with any random
draw r, SmoothWeight — the latter two under the `n`-field/entry-count sync
that every reachable state satisfies): with zero entries next() returns the
empty result, and with exactly one entry next() returns that entry's item on
every call regardless of the sign of its weight, leaving the state
unchanged. -/
theorem C7_zero_one_entry_short_circuit {T : Type}
    (srr : RoundrobinWeight T) (srd : RandWeight T) (ssw : SmoothWeight T)
    (r : Int)
    (hrd : (srd.n : Int) = srd.items.length)
    (hsw : ssw.n = ssw.items.length) :
    (srr.items = [] → srr.next = .ok srr none) ∧
    (∀ it, srr.items = [it] → srr.next = .ok srr (some it.item)) ∧
    (srd.items = [] → srd.next r = some none) ∧
    (∀ it, srd.items = [it] → srd.next r = some (some it.item)) ∧
    (ssw.items = [] → ssw.next = some (ssw, none)) ∧
    (∀ it, ssw.items = [it] → ssw.next = some (ssw, some it.item)) := by
  refine ⟨?_, ?_, ?_, ?_, ?_, ?_⟩
  · intro h
    simp [RoundrobinWeight.next, h]
  · intro it h
    simp [RoundrobinWeight.next, h]
  · intro h
    have hn : srd.n = 0 := by
      have := hrd
      rw [h] at this
      simpa using this
    simp [RandWeight.next, hn]
  · intro it h
    have hn : srd.n = 1 := by
      have := hrd
      rw [h] at this
      simpa using this
    simp [RandWeight.next, hn, h]
  · intro h
    have hn : ssw.n = 0 := by
      rw [hsw, h]
      simp
    simp [SmoothWeight.next, hn]
  · intro it h
    have hn : ssw.n = 1 := by
      rw [hsw, h]
      simp
    simp [SmoothWeight.next, hn, h]

/-- C7 witness: the theorem applied to the empty RoundrobinWeight and to
singleton RandWeight/SmoothWeight selectors with negative weight -4. -/
theorem C7_zero_one_entry_short_circuit_witness :
    ((RoundrobinWeight.new Nat).next = .ok (RoundrobinWeight.new Nat) none) ∧
    (((RandWeight.new Nat).add 7 (-4)).next 0 = some (some 7)) ∧
    (((SmoothWeight.new Nat).add 7 (-4)).next =
      some ((SmoothWeight.new Nat).add 7 (-4), some 7)) := by
  have h := C7_zero_one_entry_short_circuit
    (RoundrobinWeight.new Nat) ((RandWeight.new Nat).add 7 (-4))
    ((SmoothWeight.new Nat).add 7 (-4)) 0 (by decide) (by decide)
  exact ⟨h.1 rfl, h.2.2.2.1 ⟨7, -4⟩ rfl,
    h.2.2.2.2.2 ⟨7, -4, 0, -4⟩ rfl⟩

/-- C10: in every reachable SmoothWeight state every entry's
effective_weight equals its nominal weight, so the recovery branch guarded
by `effective_weight < weight` is never executed. -/
theorem C10_effective_weight_invariant {T : Type} {s : SmoothWeight T}
    (h : SmoothWeight.Reach s) :
    ∀ w ∈ s.items,
      w.effective_weight = w.weight ∧ ¬ w.effective_weight < w.weight := by
  intro w hw
  have he := (smooth_reach_inv h).2 w hw
  exact ⟨he, by rw [he]; exact lt_irrefl _⟩

/-- C10 witness: the invariant applied to the state reached from the
5/2/3 example after one completed next() call, at its second entry. -/
theorem C10_effective_weight_invariant_witness :
    (⟨1, 2, 2, 2⟩ : SmoothWeightItem Nat).effective_weight =
        (⟨1, 2, 2, 2⟩ : SmoothWeightItem Nat).weight ∧
      ¬ (⟨1, 2, 2, 2⟩ : SmoothWeightItem Nat).effective_weight <
        (⟨1, 2, 2, 2⟩ : SmoothWeightItem Nat).weight :=
  C10_effective_weight_invariant
    (SmoothWeight.Reach.next
      (SmoothWeight.Reach.add 2 3 (SmoothWeight.Reach.add 1 2
        (SmoothWeight.Reach.add 0 5 SmoothWeight.Reach.new)))
      (show swExample523.next =
          some (⟨[⟨0, 5, -5, 5⟩, ⟨1, 2, 2, 2⟩, ⟨2, 3, 3, 3⟩], 3⟩, some 0)
        by decide))
    ⟨1, 2, 2, 2⟩ (by decide)

/-- C3 amended: as stated the claim is refuted by the counterexample (a
zero-weight entry is selected when all weights are zero); restricted to
states all of whose entries carry positive weight, every completed next()
that yields an item yields the item of a positive-weight entry, for all
three selectors (RandWeight taken at an arbitrary draw). -/
theorem C3_amended_positive_entries {T : Type} :
    (∀ (s s' : RoundrobinWeight T) (x : T),
        (∀ it ∈ s.items, 0 < it.weight) →
        s.next = .ok s' (some x) →
        ∃ it ∈ s.items, it.item = x ∧ 0 < it.weight) ∧
    (∀ (s : RandWeight T) (r : Int) (x : T),
        (∀ it ∈ s.items, 0 < it.weight) →
        s.next r = some (some x) →
        ∃ it ∈ s.items, it.item = x ∧ 0 < it.weight) ∧
    (∀ (s s' : SmoothWeight T) (x : T),
        (∀ w ∈ s.items, 0 < w.weight) →
        s.next = some (s', some x) →
        ∃ w ∈ s.items, w.item = x ∧ 0 < w.weight) := by
  refine ⟨?_, ?_, ?_⟩
  · intro s s' x hpos h
    obtain ⟨it, hit, hx⟩ := RoundrobinWeight.rr_next_ok_mem h
    exact ⟨it, hit, hx, hpos it hit⟩
  · intro s r x hpos h
    obtain ⟨it, hit, hx⟩ := RandWeight.rand_next_ok_mem h
    exact ⟨it, hit, hx, hpos it hit⟩
  · intro s s' x hpos h
    obtain ⟨w, hw, hx⟩ := SmoothWeight.smooth_next_ok_mem h
    exact ⟨w, hw, hx, hpos w hw⟩

/-- C3 witness: the amended claim applied to the RoundrobinWeight 5/2/3
example, whose first next() call returns item 0. -/
theorem C3_amended_positive_entries_witness :
    ∃ it ∈ rrExample523.items, it.item = 0 ∧ 0 < it.weight :=
  (C3_amended_positive_entries (T := Nat)).1 rrExample523
    ⟨[⟨0, 5⟩, ⟨1, 2⟩, ⟨2, 3⟩], 1, 5, 0, 5⟩ 0 (by decide) (by decide)

/-- C6: for every reachable RoundrobinWeight state with at least two
entries, a single next() call terminates: the embedded search loop, run with
the explicit fuel 2*length+2 (one partial sweep to the wrap plus one full
sweep — within the claim's one-sweep-of-max_weight/gcd-order bound),
completes with Some or None rather than exhausting its fuel or panicking. -/
theorem C6_next_terminates {T : Type} {s : RoundrobinWeight T}
    (h : RoundrobinWeight.Reach s) (hn : 2 ≤ s.items.length) :
    ∃ s' v, s.next = RoundrobinWeight.NextRes.ok s' v := by
  have hInv := RoundrobinWeight.reach_inv h
  have hlen : ¬ s.items.length ≤ 1 := by omega
  unfold RoundrobinWeight.next
  rw [if_neg hlen]
  exact RoundrobinWeight.loop_terminates s hn hInv

/-- C6 witness: the RoundrobinWeight 5/2/3 example (a reachable state with
three entries) completes its next() call. -/
theorem C6_next_terminates_witness :
    ∃ s' v, rrExample523.next = RoundrobinWeight.NextRes.ok s' v :=
  C6_next_terminates
    (RoundrobinWeight.Reach.add 2 3 (RoundrobinWeight.Reach.add 1 2
      (RoundrobinWeight.Reach.add 0 5 RoundrobinWeight.Reach.new)))
    (by decide)

/-- C8 amended: as stated the claim is refuted by the counterexample (with
only non-positive weights, RoundrobinWeight's fresh cursor starts at 0 while
reset sets it to -1, so the sequences differ).  What holds is: reset()
preserves all() for every selector; RandWeight.reset leaves the modelled
state — entries, n and sum_of_weights — unchanged (it only reseeds the
rng); a reachable SmoothWeight state after reset() equals the freshly
constructed selector given the same (item, weight) pairs; and a reachable
RoundrobinWeight state with at least one positive-weight entry after
reset() equals the freshly constructed selector given the same pairs —
hence for those two the subsequent next() sequences coincide with the fresh
selector's.  For RandWeight no fresh-selector match holds in general:
remove_all leaves sum_of_weights residual, so the reachable state
add(0,9); remove_all(); add(1,2); add(2,-5) keeps a stored sum of 6, and
after reset() its next at draw 0 returns Some 1 while the freshly
constructed selector with the same entries has sum -3 and panics in
gen_range — the final two conjuncts exhibit this divergence. -/
theorem C8_amended_reset_behavior {T : Type} [DecidableEq T] :
    (∀ s : RoundrobinWeight T, s.reset.all = s.all) ∧
    (∀ s : SmoothWeight T, s.reset.all = s.all) ∧
    (∀ s : RandWeight T, s.reset = s) ∧
    (∀ s : SmoothWeight T, SmoothWeight.Reach s →
        s.reset = smoothFromList (s.items.map fun w => (w.item, w.weight))) ∧
    (∀ s : RoundrobinWeight T, RoundrobinWeight.Reach s →
        (∃ it ∈ s.items, 0 < it.weight) →
        s.reset = rrFromList (s.items.map fun it => (it.item, it.weight))) ∧
    (RandWeight.next
        (RandWeight.reset
          ((((((RandWeight.new Nat).add 0 9).remove_all).add 1 2).add 2 (-5))))
        0 = some (some 1)) ∧
    (RandWeight.next (((RandWeight.new Nat).add 1 2).add 2 (-5)) 0 = none) := by
  refine ⟨fun s => rfl, fun s => ?_, fun s => rfl, ?_, ?_, by decide, by decide⟩
  · simp only [SmoothWeight.all, SmoothWeight.reset, List.foldl_map]
  · intro s hr
    obtain ⟨hn, -⟩ := smooth_reach_inv hr
    rw [smoothFromList_spec]
    simp only [SmoothWeight.reset, SmoothWeight.mk.injEq]
    constructor
    · rw [List.map_map]
      rfl
    · rw [List.length_map]
      exact hn
  · intro s hr hpos
    have hInv := RoundrobinWeight.reach_inv hr
    rw [rrFromList_spec]
    have hmap :
        (s.items.map fun it => (it.item, it.weight)).map
            (fun p => (⟨p.1, p.2⟩ : RRWeightItem T)) = s.items := by
      rw [List.map_map]
      have hid : ((fun p => (⟨p.1, p.2⟩ : RRWeightItem T)) ∘
          fun it => (it.item, it.weight)) = id := rfl
      rw [hid, List.map_id]
    have hexq : ∃ q ∈ s.items.map (fun it => (it.item, it.weight)),
        0 < q.2 := by
      obtain ⟨it, hit, hw⟩ := hpos
      exact ⟨(it.item, it.weight), List.mem_map_of_mem _ hit, hw⟩
    rw [hmap, if_pos hexq]
    have h1 : s.gcd = (RoundrobinWeight.agg s.items).1 :=
      congrArg Prod.fst hInv.agg_eq
    have h2 : s.max_w = (RoundrobinWeight.agg s.items).2 :=
      congrArg Prod.snd hInv.agg_eq
    simp only [RoundrobinWeight.reset, RoundrobinWeight.mk.injEq]
    exact ⟨trivial, h1, h2, trivial, trivial⟩

/-- C8 witness: reset of the RoundrobinWeight and SmoothWeight 5/2/3
examples equals the freshly constructed selector given the same entries. -/
theorem C8_amended_reset_behavior_witness :
    RoundrobinWeight.reset rrExample523 =
      rrFromList (rrExample523.items.map fun it => (it.item, it.weight)) ∧
    SmoothWeight.reset swExample523 =
      smoothFromList (swExample523.items.map fun w => (w.item, w.weight)) := by
  have h := C8_amended_reset_behavior (T := Nat)
  exact ⟨h.2.2.2.2.1 rrExample523
      (RoundrobinWeight.Reach.add 2 3 (RoundrobinWeight.Reach.add 1 2
        (RoundrobinWeight.Reach.add 0 5 RoundrobinWeight.Reach.new)))
      (by decide),
    h.2.2.2.1 swExample523
      (SmoothWeight.Reach.add 2 3 (SmoothWeight.Reach.add 1 2
        (SmoothWeight.Reach.add 0 5 SmoothWeight.Reach.new)))⟩

/-- C9 amended: as stated the claim is refuted by the duplicate-item
counterexample; what holds is: all() is a pure (non-mutating, hence
idempotent) function of the current entries; for SmoothWeight and RandWeight
it holds one pair per distinct item value, mapping it to the weight of the
last entry added with that item; for RoundrobinWeight it enumerates every
entry (one pair per entry, in insertion order). -/
theorem C9_amended_all_enumeration {T : Type} [DecidableEq T] :
    (∀ (s : SmoothWeight T) (k : T),
        hmLookup k s.all = lastWeightSmooth s.items k) ∧
    (∀ (s : RandWeight T) (k : T),
        hmLookup k s.all = lastWeightRand s.items k) ∧
    (∀ s : RoundrobinWeight T,
        s.all = s.items.map fun it => (it.item, it.weight)) := by
  refine ⟨?_, ?_, fun s => rfl⟩
  · intro s k
    have h := foldl_insert_lookup (fun w : SmoothWeightItem T => w.item)
      (fun w => w.weight) s.items [] k
    rw [SmoothWeight.all, lastWeightSmooth]
    rw [h]
    cases hf : s.items.reverse.find? (fun w => decide (w.item = k)) <;>
      simp [hf, hmLookup]
  · intro s k
    have h := foldl_insert_lookup (fun w : RandWeightItem T => w.item)
      (fun w => w.weight) s.items [] k
    rw [RandWeight.all, lastWeightRand]
    rw [h]
    cases hf : s.items.reverse.find? (fun w => decide (w.item = k)) <;>
      simp [hf, hmLookup]

end WeightedRs
